import Mathlib

/-!
# Verification of oci2git against its specification

A shallow embedding of the core string/list algorithms of the `oci2git`
repository (image-metadata markdown codec, digest tracker, successor
navigator, layer reconstruction, tar path normalization, branch naming,
processor commit sequence), with theorems settling the specification
claims about them.

Rust `String`/`str` values are modelled as `List Char` (`Str` below); the
byte-level and char-level views coincide on the valid UTF-8 strings the
program manipulates for the operations modelled here (`contains`,
`replace`, `trim`, splitting at separator characters).  Fallible Rust
functions are modelled with `Option`/`Except`.  Functions whose Rust
originals loop with an index that can jump are implemented with an
explicit fuel argument, always called with fuel at least the input
length; fuel-irrelevance lemmas bridge the gap.
-/

namespace Oci2git

/-- Characters of a Rust `String`/`str`. -/
abbrev Str := List Char

/-- Rust whitespace test as used by `str::trim` (ASCII fragment, which is
all the program's trimmed strings contain). -/
def isWs (c : Char) : Bool :=
  c = ' ' || c = '\t' || c = '\n' || c = '\r'

/-- Rust `str::trim_start`. -/
def trimStart (s : Str) : Str := s.dropWhile isWs

/-- Rust `str::trim_end`. -/
def trimEnd (s : Str) : Str := (s.reverse.dropWhile isWs).reverse

/-- Rust `str::trim`. -/
def trim (s : Str) : Str := trimEnd (trimStart s)

/-- Rust `str::contains` with a string pattern. -/
def containsL (pat : Str) : Str → Bool
  | [] => pat.isPrefixOf []
  | c :: rest => pat.isPrefixOf (c :: rest) || containsL pat rest

/-- Fuel-driven core of `str::replace`: leftmost non-overlapping
occurrences of `pat` are replaced by `to`.  With fuel at least the length
of the input this is exactly Rust's behaviour for a nonempty pattern (the
program never replaces an empty pattern). -/
def replaceGo (pat sub : Str) : Nat → Str → Str
  | _, [] => []
  | 0, s => s
  | fuel + 1, c :: rest =>
    if pat ≠ [] ∧ pat.isPrefixOf (c :: rest) then
      sub ++ replaceGo pat sub fuel ((c :: rest).drop pat.length)
    else
      c :: replaceGo pat sub fuel rest

/-- Rust `str::replace`. -/
def replaceL (pat sub s : Str) : Str := replaceGo pat sub s.length s

/-- Fuel-driven core of `str::split` with a string separator. -/
def splitSubGo (sep : Str) : Nat → Str → List Str
  | _, [] => [[]]
  | 0, s => [s]
  | fuel + 1, c :: rest =>
    if sep ≠ [] ∧ sep.isPrefixOf (c :: rest) then
      [] :: splitSubGo sep fuel ((c :: rest).drop sep.length)
    else
      match splitSubGo sep fuel rest with
      | p :: ps => (c :: p) :: ps
      | [] => [[c]]

/-- Rust `str::split` with a string separator. -/
def splitSub (sep s : Str) : List Str := splitSubGo sep s.length s

/-- Rust `str::split` with a `char` separator (keeps empty parts). -/
def splitOnChar (sep : Char) : Str → List Str
  | [] => [[]]
  | c :: rest =>
    if c = sep then [] :: splitOnChar sep rest
    else
      match splitOnChar sep rest with
      | p :: ps => (c :: p) :: ps
      | [] => [[c]]

/-- Strip one trailing carriage return (the `\r` of a `\r\n` line ending). -/
def stripCR (s : Str) : Str :=
  if s.getLast? = some '\r' then s.dropLast else s

/-- Apply `f` to every element except the last. -/
def mapButLast (f : Str → Str) : List Str → List Str
  | [] => []
  | [x] => [x]
  | x :: y :: t => f x :: mapButLast f (y :: t)

/-- Rust `str::lines`: split at `\n` terminators, dropping the `\r` of a
`\r\n`; a final line ending produces no trailing empty line. -/
def linesOf (s : Str) : List Str :=
  if s = [] then []
  else
    let parts := splitOnChar '\n' s
    if parts.getLast? = some [] then (parts.dropLast).map stripCR
    else mapButLast stripCR parts

/-- Join lines, terminating each with `\n` (the shape every `push_str` in
the renderers produces). -/
def unlines : List Str → Str
  | [] => []
  | l :: ls => l ++ '\n' :: unlines ls

/-- Rust `bool`'s `Display` ("true" / "false"). -/
def boolStr (b : Bool) : Str := if b then "true".data else "false".data

/-- Rust `[String]::join`. -/
def joinSep (sep : Str) : List Str → Str
  | [] => []
  | [t] => t
  | t :: t₂ :: ts => t ++ sep ++ joinSep sep (t₂ :: ts)

/-! ## Data model (`digest_tracker.rs`, `image_metadata.rs`, `extracted_image.rs`) -/

/-- `digest_tracker::LayerDigest`. -/
structure LayerDigest where
  digest : Str
  command : Str
  created : Str
  is_empty : Bool
  comment : Option Str
deriving DecidableEq, Repr

/-- `digest_tracker::DigestTracker`. -/
structure DigestTracker where
  layer_digests : List LayerDigest
deriving DecidableEq, Repr

/-- `image_metadata::BasicInfo`. -/
structure BasicInfo where
  name : Str
  id : Str
  tags : List Str
  created : Str
  architecture : Str
  os : Str
deriving DecidableEq, Repr

/-- `image_metadata::ContainerConfig`.  The `labels` HashMap is modelled
as its list of key/value entries in iteration order. -/
structure ContainerConfig where
  environment_variables : List Str
  command : Option Str
  entrypoint : Option Str
  working_directory : Str
  exposed_ports : List Str
  labels : List (Str × Str)
deriving DecidableEq, Repr

/-- `image_metadata::ImageMetadata`. -/
structure ImageMetadata where
  basic_info : Option BasicInfo
  container_config : Option ContainerConfig
  layer_digests : List LayerDigest
deriving DecidableEq, Repr

/-- `extracted_image::Layer`.  `tarball_path` is a path as its list of
components; `created_at` holds the `to_rfc3339()` rendering of the
`chrono` timestamp (the only view of it the modelled code uses). -/
structure Layer where
  id : Str
  command : Str
  created_at : Str
  is_empty : Bool
  tarball_path : Option (List Str)
  digest : Str
  comment : Option Str
deriving DecidableEq, Repr

/-! ## Markdown rendering (`ImageMetadata::render_markdown`) -/

/-- The pipe escaping applied to a layer row's command and comment:
`str.replace("|", "\\|")`. -/
def escPipes (s : Str) : Str := replaceL "|".data "\\|".data s

/-- One row of the `## Layer History` table, exactly as `render_markdown`
formats it. -/
def renderRow (l : LayerDigest) : Str :=
  "| ".data ++ l.created ++ " | `".data ++ escPipes l.command ++ "` | ".data ++
    escPipes (l.comment.getD []) ++ " | `".data ++ l.digest ++ "` | ".data ++
    boolStr l.is_empty ++ " |".data

/-- The lines of the `## Basic Information` section. -/
def renderBasicLines (b : BasicInfo) : List Str :=
  ["## Basic Information".data, [],
   "- **Name**: ".data ++ b.name,
   "- **ID**: `".data ++ b.id ++ "`".data] ++
  (if b.tags ≠ [] then ["- **Tags**: ".data ++ joinSep ", ".data b.tags] else []) ++
  ["- **Created**: ".data ++ b.created,
   "- **Architecture**: ".data ++ b.architecture,
   "- **OS**: ".data ++ b.os, []]

/-- The lines of the `## Container Configuration` section. -/
def renderConfigLines (cc : ContainerConfig) : List Str :=
  ["## Container Configuration".data, []] ++
  (if cc.environment_variables ≠ [] then
     ["### Environment Variables".data, [], "```".data] ++
       cc.environment_variables ++ ["```".data, []]
   else []) ++
  (match cc.command with
   | some cmd => ["### Command".data, [], "```".data, cmd, "```".data, []]
   | none => []) ++
  (match cc.entrypoint with
   | some ep => ["### Entrypoint".data, [], "```".data, ep, "```".data, []]
   | none => []) ++
  (if cc.working_directory ≠ [] then
     ["### Working Directory".data, [],
      "`".data ++ cc.working_directory ++ "`".data, []]
   else []) ++
  (if cc.exposed_ports ≠ [] then
     ["### Exposed Ports".data, []] ++
       cc.exposed_ports.map (fun p => "- `".data ++ p ++ "`".data) ++ [[]]
   else []) ++
  (if cc.labels ≠ [] then
     ["### Labels".data, [], "| Key | Value |".data, "|-----|-------|".data] ++
       cc.labels.map (fun kv =>
         "| `".data ++ kv.1 ++ "` | `".data ++ kv.2 ++ "` |".data) ++ [[]]
   else [])

/-- The lines of the `## Layer History` section. -/
def renderLayerLines (ls : List LayerDigest) : List Str :=
  if ls ≠ [] then
    ["## Layer History".data, [],
     "| Created | Command | Comment | Digest | Empty |".data,
     "|---------|---------|---------|--------|-------|".data] ++
      ls.map renderRow ++ [[]]
  else []

/-- The `# Image: …` header line and its blank line. -/
def renderHeaderLines : Option BasicInfo → List Str
  | some b => ["# Image: ".data ++ b.name, []]
  | none => ["# Image: Unknown".data, []]

/-- The basic-information section (absent when there is no basic info). -/
def renderBasicOpt : Option BasicInfo → List Str
  | some b => renderBasicLines b
  | none => []

/-- The container-configuration section (absent when there is no
container config). -/
def renderConfigOpt : Option ContainerConfig → List Str
  | some cc => renderConfigLines cc
  | none => []

/-- All lines of `render_markdown`'s output, in push order (every
`push_str` in the source appends text ending in a newline, so the output
is exactly these lines `\n`-joined). -/
def renderLines (m : ImageMetadata) : List Str :=
  renderHeaderLines m.basic_info ++ renderBasicOpt m.basic_info ++
  renderConfigOpt m.container_config ++ renderLayerLines m.layer_digests

/-- `ImageMetadata::render_markdown` (the `Ok` payload; the source never
returns `Err`). -/
def renderMarkdown (m : ImageMetadata) : Str := unlines (renderLines m)

/-! ## Markdown parsing (`ImageMetadata::parse_markdown`)

The Rust loop walks a `Vec` of lines with an index `i` that individual
branches advance; since no branch ever moves `i` backwards past already
consumed lines, it is modelled as a recursion that consumes the line
list, with one unit of fuel per loop iteration (each iteration consumes
at least one line, so the number of lines is enough fuel). -/

/-- Split a table row at unescaped pipes (a `|` at position 0 or not
preceded by `\`), dropping an empty trailing segment — the row
tokenization of `parse_markdown`.  `prev` is the previous character. -/
def splitUPGo (cur : Str) (prev : Option Char) : Str → List Str
  | [] => if cur = [] then [] else [cur]
  | c :: rest =>
    if c = '|' ∧ prev ≠ some '\\' then cur :: splitUPGo [] (some '|') rest
    else splitUPGo (cur ++ [c]) (some c) rest

/-- Row tokenization at unescaped pipes. -/
def splitUP (s : Str) : List Str := splitUPGo [] none s

/-- Process one data row of the `## Layer History` table, appending a
parsed `LayerDigest` when the row has at least six cells and nonempty
`created` and `digest`. -/
def parseRow (lineContent : Str) (acc : List LayerDigest) : List LayerDigest :=
  let parts := splitUP lineContent
  if 6 ≤ parts.length then
    let created := trim (parts.getD 1 [])
    let command := replaceL "\\|".data "|".data (replaceL "`".data [] (trim (parts.getD 2 [])))
    let comment := replaceL "\\|".data "|".data (trim (parts.getD 3 []))
    let digest := replaceL "`".data [] (trim (parts.getD 4 []))
    let is_empty := trim (parts.getD 5 []) = "true".data
    if created ≠ [] ∧ digest ≠ [] then
      acc ++ [{ digest := digest, command := command, created := created,
                is_empty := is_empty,
                comment := if comment = [] then none else some comment }]
    else acc
  else acc

/-- `HashMap::insert` on the label entry list: replace the value of an
existing key, else append. -/
def insertAssoc (k v : Str) : List (Str × Str) → List (Str × Str)
  | [] => [(k, v)]
  | (k₀, v₀) :: rest =>
    if k₀ = k then (k, v) :: rest else (k₀, v₀) :: insertAssoc k v rest

/-- The mutable locals of `parse_markdown`. -/
structure PState where
  b : BasicInfo
  cc : ContainerConfig
  layers : List LayerDigest
deriving DecidableEq, Repr

/-- Initial parser state: empty `BasicInfo`, default `ContainerConfig`
(working directory `/`), no layers. -/
def initPState : PState :=
  { b := { name := [], id := [], tags := [], created := [],
           architecture := [], os := [] },
    cc := { environment_variables := [], command := none, entrypoint := none,
            working_directory := "/".data, exposed_ports := [], labels := [] },
    layers := [] }

/-- Does a (trimmed) line start a layer-history data row? -/
def isRowLine (l : Str) : Bool :=
  "|".data.isPrefixOf (trim l) && !(trim l).isEmpty

/-- Is a (trimmed) line a label table row (starts with `|`, not the
header `| Key |`)? -/
def isLabelRowLine (l : Str) : Bool :=
  "|".data.isPrefixOf (trim l) && !("| Key |".data.isPrefixOf (trim l))

/-- Is a (trimmed) line an exposed-port bullet? -/
def isPortLine (l : Str) : Bool := "- `".data.isPrefixOf (trim l)

/-- Parse one label table row into the label map. -/
def parseLabelRow (l : Str) (labels : List (Str × Str)) : List (Str × Str) :=
  let parts := splitOnChar '|' l
  if 4 ≤ parts.length then
    let key := replaceL "`".data [] (trim (parts.getD 1 []))
    let value := replaceL "`".data [] (trim (parts.getD 2 []))
    if key ≠ [] ∧ value ≠ [] then insertAssoc key value labels else labels
  else labels

/-! One iteration of the `parse_markdown` loop is split into one handler
per branch, in source order.  Each handler takes the trimmed current
line, the following lines and the state, and returns the lines left for
the next iteration and the new state.  (Branches in which the Rust loop
runs off the end of `lines` return `[]` as the remaining input, on which
the driver below stops unchanged, as the Rust loop does.) -/

/-- `# Image: ` branch. -/
def stepImage (line : Str) (rest : List Str) (st : PState) : List Str × PState :=
  (rest, { st with b := { st.b with name := replaceL "# Image: ".data [] line } })

/-- `- **Name**: ` branch. -/
def stepName (line : Str) (rest : List Str) (st : PState) : List Str × PState :=
  (rest, { st with b := { st.b with name := replaceL "- **Name**: ".data [] line } })

/-- `- **ID**: `` ` branch. -/
def stepID (line : Str) (rest : List Str) (st : PState) : List Str × PState :=
  (rest, { st with b := { st.b with
      id := replaceL "`".data [] (replaceL "- **ID**: `".data [] line) } })

/-- `- **Tags**: ` branch. -/
def stepTags (line : Str) (rest : List Str) (st : PState) : List Str × PState :=
  (rest, { st with b := { st.b with
      tags := splitSub ", ".data (replaceL "- **Tags**: ".data [] line) } })

/-- `- **Created**: ` branch. -/
def stepCreated (line : Str) (rest : List Str) (st : PState) : List Str × PState :=
  (rest, { st with b := { st.b with created := replaceL "- **Created**: ".data [] line } })

/-- `- **Architecture**: ` branch. -/
def stepArch (line : Str) (rest : List Str) (st : PState) : List Str × PState :=
  (rest, { st with b := { st.b with
      architecture := replaceL "- **Architecture**: ".data [] line } })

/-- `- **OS**: ` branch. -/
def stepOS (line : Str) (rest : List Str) (st : PState) : List Str × PState :=
  (rest, { st with b := { st.b with os := replaceL "- **OS**: ".data [] line } })

/-- `### Environment Variables` branch. -/
def stepEnv (rest : List Str) (st : PState) : List Str × PState :=
  match rest with
  | [] => ([], st)
  | _ :: rest2 =>
    let scanned := rest2.takeWhile (fun l => !(trim l = "```".data))
    let envs := scanned.filter (fun l => !(trim l).isEmpty)
    let rem := rest2.dropWhile (fun l => !(trim l = "```".data))
    (rem.tail,
      { st with cc := { st.cc with
          environment_variables := st.cc.environment_variables ++ envs } })

/-- `### Command` branch. -/
def stepCmd (rest : List Str) (st : PState) : List Str × PState :=
  match rest with
  | [] => ([], st)
  | [_] => ([], st)
  | _ :: l₂ :: rest3 =>
    let st' := if trim l₂ ≠ "```".data then
        { st with cc := { st.cc with command := some (trim l₂) } }
      else st
    (rest3, st')

/-- `### Entrypoint` branch. -/
def stepEntry (rest : List Str) (st : PState) : List Str × PState :=
  match rest with
  | [] => ([], st)
  | [_] => ([], st)
  | _ :: l₂ :: rest3 =>
    let st' := if trim l₂ ≠ "```".data then
        { st with cc := { st.cc with entrypoint := some (trim l₂) } }
      else st
    (rest3, st')

/-- `### Working Directory` branch. -/
def stepWd (rest : List Str) (st : PState) : List Str × PState :=
  match rest with
  | [] => ([], st)
  | [_] => ([], st)
  | _ :: l₂ :: rest3 =>
    let wd := replaceL "`".data [] (trim l₂)
    let st' := if wd ≠ [] then
        { st with cc := { st.cc with working_directory := wd } }
      else st
    (rest3, st')

/-- `### Exposed Ports` branch. -/
def stepPorts (rest : List Str) (st : PState) : List Str × PState :=
  match rest with
  | [] => ([], st)
  | _ :: rest2 =>
    let ports := (rest2.takeWhile isPortLine).map (fun l =>
      replaceL "`".data [] (replaceL "- `".data [] (trim l)))
    let rem := rest2.dropWhile isPortLine
    (rem,
      { st with cc := { st.cc with
          exposed_ports := st.cc.exposed_ports ++ ports } })

/-- `### Labels` branch. -/
def stepLabels (rest : List Str) (st : PState) : List Str × PState :=
  match rest with
  | [] => ([], st)
  | [_] => ([], st)
  | _ :: _ :: rest3 =>
    let rows := rest3.takeWhile isLabelRowLine
    let rem := rest3.dropWhile isLabelRowLine
    (rem,
      { st with cc := { st.cc with
          labels := rows.foldl (fun m l => parseLabelRow l m) st.cc.labels } })

/-- Skip the next line when it starts (trimmed) with `pre` — the
"skip table header line" / "skip separator line" steps of the
`## Layer History` branch. -/
def skipHdr (pre : Str) : List Str → List Str
  | l :: t => if pre.isPrefixOf (trim l) then t else l :: t
  | [] => []

/-- `## Layer History` branch. -/
def stepLayers (rest : List Str) (st : PState) : List Str × PState :=
  match rest with
  | [] => ([], st)
  | _ :: rest2 =>
    let rest4 := skipHdr "|------".data (skipHdr "| Created |".data rest2)
    let rows := rest4.takeWhile isRowLine
    let rem := rest4.dropWhile isRowLine
    (rem,
      { st with layers := rows.foldl (fun acc l => parseRow l acc) st.layers })

/-- One iteration of the `parse_markdown` loop: dispatch on the trimmed
current line, branch for branch in source order. -/
def parseStep (l₀ : Str) (rest : List Str) (st : PState) :
    List Str × PState :=
  let line := trim l₀
  if "# Image: ".data.isPrefixOf line then stepImage line rest st
  else if "- **Name**: ".data.isPrefixOf line then stepName line rest st
  else if "- **ID**: `".data.isPrefixOf line then stepID line rest st
  else if "- **Tags**: ".data.isPrefixOf line then stepTags line rest st
  else if "- **Created**: ".data.isPrefixOf line then stepCreated line rest st
  else if "- **Architecture**: ".data.isPrefixOf line then stepArch line rest st
  else if "- **OS**: ".data.isPrefixOf line then stepOS line rest st
  else if line = "### Environment Variables".data then stepEnv rest st
  else if line = "### Command".data then stepCmd rest st
  else if line = "### Entrypoint".data then stepEntry rest st
  else if "### Working Directory".data.isPrefixOf line then stepWd rest st
  else if line = "### Exposed Ports".data then stepPorts rest st
  else if line = "### Labels".data then stepLabels rest st
  else if line = "## Layer History".data then stepLayers rest st
  else (rest, st)

/-- The loop of `parse_markdown`: iterate `parseStep`.  `fuel` bounds
the number of loop iterations (each iteration consumes at least one
line, so the number of lines is enough fuel). -/
def parseGo : Nat → List Str → PState → PState
  | _, [], st => st
  | 0, _, st => st
  | fuel + 1, l₀ :: rest, st =>
    parseGo fuel (parseStep l₀ rest st).1 (parseStep l₀ rest st).2

/-- `ImageMetadata::parse_markdown` (the `Ok` payload; the source
constructs `Ok` on every path). -/
def parseMarkdown (content : Str) : ImageMetadata :=
  let lines := linesOf content
  let st := parseGo lines.length lines initPState
  let basic := if st.b.name = [] ∧ st.b.id = [] then none else some st.b
  let cc :=
    if st.cc.environment_variables = [] ∧ st.cc.command = none ∧
        st.cc.entrypoint = none ∧ st.cc.working_directory = "/".data ∧
        st.cc.exposed_ports = [] ∧ st.cc.labels = [] then none
    else some st.cc
  { basic_info := basic, container_config := cc, layer_digests := st.layers }

/-! ## Digest tracker (`digest_tracker.rs`) -/

/-- `DigestTracker::new`. -/
def DigestTracker.new : DigestTracker := { layer_digests := [] }

/-- `DigestTracker::get_layer`. -/
def getLayer (t : DigestTracker) (position : Nat) : Option LayerDigest :=
  t.layer_digests.get? position

/-- `DigestTracker::extract_digest_from_layer_id`. -/
def extractDigestFromLayerId (layer_id : Str) : Str :=
  if "sha256:".data.isPrefixOf layer_id then layer_id
  else if layer_id.head? = some '<' ∧ layer_id.getLast? = some '>' then layer_id
  else "sha256:".data ++ layer_id

/-- Timestamp normalization used by `DigestTracker::layers_match`:
`created.replace("Z", "+00:00")`. -/
def normTs (s : Str) : Str := replaceL "Z".data "+00:00".data s

/-- `DigestTracker::layers_match`. -/
def layersMatch (existing : LayerDigest) (nw : Layer) : Bool :=
  if existing.is_empty ≠ nw.is_empty then false
  else if normTs existing.created ≠ normTs nw.created_at then false
  else if existing.is_empty then existing.command = nw.command
  else existing.digest = extractDigestFromLayerId nw.id

/-- `DigestTracker::layer_matches`. -/
def layerMatches (t : DigestTracker) (position : Nat) (layer : Layer) : Bool :=
  match getLayer t position with
  | some existing => layersMatch existing layer
  | none => false

/-- `DigestTracker::extract_digest_from_tarball_path`, on a path given as
its list of components (`parent` = all but the last component,
`file_name` = the last component). -/
def extractDigestFromTarballPath (path : List Str) : Str :=
  if path.dropLast.getLast? = some "sha256".data ∧ path.getLast?.isSome then
    "sha256:".data ++ (path.getLast?).getD []
  else
    match path.getLast? with
    | some f => if "sha256:".data.isPrefixOf f then f else "sha256:".data ++ f
    | none => "unknown".data

/-! ## Command normalization and layer reconstruction
(`extracted_image.rs::load_layers_from_dir`) -/

/-- The shell wrapper `"/bin/sh -c #(nop) "`. -/
def shellNop : Str := "/bin/sh -c #(nop) ".data

/-- The shell wrapper `"/bin/sh -c "`. -/
def shellWrap : Str := "/bin/sh -c ".data

/-- The `command` derivation in `load_layers_from_dir` (also duplicated in
`processor.rs::get_layers` and `metadata.rs`): `contains` + `replace`
(all occurrences) + `trim_start`. -/
def normalizeCommand (created_by : Str) : Str :=
  if containsL shellNop created_by then trimStart (replaceL shellNop [] created_by)
  else if containsL shellWrap created_by then trimStart (replaceL shellWrap [] created_by)
  else created_by

/-- One history entry of the image config, as `load_layers_from_dir`
reads it from JSON (absent fields are `none`). -/
structure HistEntry where
  created : Option Str
  created_by : Option Str
  comment : Option Str
  empty_layer : Option Bool
deriving DecidableEq, Repr

/-- One step of the reverse history walk in `load_layers_from_dir`:
state is `(current_tarball_idx, layers-accumulated-newest-first)`, the
entry comes with its original index `i`.  `chrono` renders the parsed
`created` timestamp back to RFC-3339 (the out-of-scope chrono library,
passed as a collaborator). -/
def loadStep (chrono : Str → Str) (tarballs : List (List Str))
    (st : Nat × List Layer) (p : Nat × HistEntry) : Nat × List Layer :=
  let idx := st.1
  let acc := st.2
  let i := p.1
  let h := p.2
  let created_at := chrono (h.created.getD "1970-01-01T00:00:00Z".data)
  let command := normalizeCommand (h.created_by.getD [])
  let is_empty := h.empty_layer.getD false
  let comment := h.comment
  if ¬is_empty ∧ 0 < idx then
    let idx' := idx - 1
    let tarball := tarballs.getD idx' []
    let id := (tarball.getLast?).getD ("layer-".data ++ (Nat.repr i).data)
    let digest := extractDigestFromTarballPath tarball
    (idx', acc ++ [{ id := id, command := command, created_at := created_at,
                     is_empty := is_empty, tarball_path := some tarball,
                     digest := digest, comment := comment }])
  else
    let id := "<empty-layer-".data ++ (Nat.repr i).data ++ ">".data
    let digest := if is_empty then "empty".data else "no-tarball".data
    (idx, acc ++ [{ id := id, command := command, created_at := created_at,
                    is_empty := is_empty, tarball_path := none,
                    digest := digest, comment := comment }])

/-- `load_layers_from_dir`'s layer reconstruction: walk the enumerated
history in reverse with `current_tarball_idx` starting at the number of
manifest layers, then reverse the accumulated vector. -/
def loadLayers (chrono : Str → Str) (history : List HistEntry)
    (tarballs : List (List Str)) : List Layer :=
  let walked := (history.enum.reverse).foldl (loadStep chrono tarballs)
    (tarballs.length, [])
  walked.2.reverse

/-! ## Successor navigator (`successor_navigator.rs`) -/

/-- The Git backend operations `find_branch_point` uses, abstracted per
the backend's contract: successors of a commit (or root commits for
`none`), and reading `Image.md` from a commit (`none` models the `Err`
of `read_file_from_commit`). -/
structure RepoModel where
  succ : Option Nat → List Nat
  readFile : Nat → Option Str

/-- `parse_markdown`'s Rust signature is `Result`; every path constructs
`Ok`, so the model wraps the total parser. -/
def parseMarkdownRes (s : Str) : Except Str ImageMetadata :=
  Except.ok (parseMarkdown s)

/-- `SuccessorNavigator::read_digests_from_commit`: a read failure yields
an empty tracker, a parse failure would propagate as `Err`. -/
def readDigestsFromCommit (repo : RepoModel) (c : Nat) : Except Str DigestTracker :=
  match repo.readFile c with
  | some content =>
    match parseMarkdownRes content with
    | Except.ok md => Except.ok { layer_digests := md.layer_digests }
    | Except.error e => Except.error e
  | none => Except.ok DigestTracker.new

/-- `SuccessorNavigator::commit_has_layer_at_position`. -/
def commitHasLayerAt (repo : RepoModel) (c : Nat) (pos : Nat) (layer : Layer) :
    Except Str Bool :=
  match readDigestsFromCommit repo c with
  | Except.ok t => Except.ok (layerMatches t pos layer)
  | Except.error e => Except.error e

/-- The candidate loop inside `find_branch_point`: first candidate whose
`Image.md` chain matches `layer` at `pos`. -/
def scanCandidates (repo : RepoModel) (cands : List Nat) (pos : Nat)
    (layer : Layer) : Except Str (Option Nat) :=
  match cands with
  | [] => Except.ok none
  | c :: cs =>
    match commitHasLayerAt repo c pos layer with
    | Except.error e => Except.error e
    | Except.ok true => Except.ok (some c)
    | Except.ok false => scanCandidates repo cs pos layer

/-- The `while layer_index < new_layers.len()` loop of
`find_branch_point`, iterating over the not-yet-matched layers. -/
def findGo (repo : RepoModel) : Option Nat → Nat → List Layer →
    Except Str (Option Nat × Nat)
  | current, i, [] => Except.ok (current, i)
  | current, i, layer :: rest =>
    match scanCandidates repo (repo.succ current) i layer with
    | Except.error e => Except.error e
    | Except.ok (some c) => findGo repo (some c) (i + 1) rest
    | Except.ok none => Except.ok (current, i)

/-- `SuccessorNavigator::find_branch_point`. -/
def findBranchPoint (repo : RepoModel) (newLayers : List Layer) :
    Except Str (Option Nat × Nat) :=
  if newLayers = [] then Except.ok (none, 0)
  else findGo repo none 0 newLayers

/-! ## Tar path normalization (`tar_extractor.rs::normalize_tar_path`) -/

/-- `std::path::Component`. -/
inductive PathComp
  | curDir
  | parentDir
  | rootDir
  | prefixComp (s : Str)
  | normal (s : Str)
deriving DecidableEq, Repr

/-- One component step of `normalize_tar_path` (`out.pop()` drops the
last pushed component). -/
def normStep (out : List Str) : PathComp → List Str
  | PathComp.curDir => out
  | PathComp.parentDir => out.dropLast
  | PathComp.normal c => out ++ [c]
  | PathComp.rootDir => out
  | PathComp.prefixComp _ => out

/-- `normalize_tar_path` over the entry path's components. -/
def normalizeTarPath (p : List PathComp) : List Str :=
  p.foldl normStep []

/-- Filesystem path resolution of a component list against a base
directory: a plain name descends, `..` ascends, `.` stays.  Used to state
what location `dest.join(rel_path)` names. -/
def resolveComps (base : List Str) (comps : List Str) : List Str :=
  comps.foldl (fun acc c =>
    if c = "..".data then acc.dropLast
    else if c = ".".data then acc
    else acc ++ [c]) base

/-! ## Branch naming (`sources/naming.rs`) -/

/-- `naming::container_image_to_branch`. -/
def containerImageToBranch (image_name : Str) : Str :=
  let normalized :=
    if ¬image_name.contains ':' ∧ ¬image_name.contains '@' then
      image_name ++ ":latest".data
    else image_name
  replaceL "@".data "-".data (replaceL "/".data "-".data
    (replaceL ":".data "#".data normalized))

/-! ## Processor (`processor.rs::ImageProcessor::convert`)

The conversion pipeline is modelled by the sequence of externally
observable repository actions it performs — writing `Image.md` and
creating commits — on the success path after the tarball has been
obtained and extracted.  Filesystem effects inside `rootfs/` are not
observable through the claims; the boolean `commit_all_changes` returns
(whether the staged tree differed) is supplied by an oracle indexed by
the layer position. -/

/-- `processor.rs`'s own `Layer` struct. -/
structure ProcLayer where
  id : Str
  command : Str
  created_at : Str
  is_empty : Bool
deriving DecidableEq, Repr

/-- One observable repository action of `convert`.  `mdWrite` records the
metadata value handed to `metadata::generate_markdown_metadata` (the
complete legacy metadata: basic info, container config and history);
`commit` records a created commit's message. -/
inductive ConvertEvent (μ : Type)
  | mdWrite (m : μ)
  | commit (msg : Str)
deriving DecidableEq, Repr

/-- The `layer_has_tarball` marking in the matching case (non-empty layer
count equals tarball count): mark non-empty layers while tarballs
remain. -/
def markMatching (nTar : Nat) : Nat → List ProcLayer → List Bool
  | _, [] => []
  | idx, l :: rest =>
    if !l.is_empty && idx < nTar then true :: markMatching nTar (idx + 1) rest
    else false :: markMatching nTar idx rest

/-- The `layer_has_tarball` vector of `convert`. -/
def layerHasTarball (layers : List ProcLayer) (nTar : Nat) : List Bool :=
  if (layers.filter (fun l => !l.is_empty)).length = nTar then
    markMatching nTar 0 layers
  else
    (List.range layers.length).map (fun i => decide (i < nTar))

/-- The per-layer replay loop of `convert`: `i` is the layer position,
`trueCount` the number of `layer_has_tarball` flags set before it (the
`tarball_idx` computation). -/
def replayGo (μ : Type) (oracle : Nat → Bool) (nTar : Nat) :
    Nat → Nat → List (ProcLayer × Bool) → List (ConvertEvent μ)
  | _, _, [] => []
  | i, trueCount, (l, has) :: rest =>
    if l.is_empty || !has then
      ConvertEvent.commit
          ((if l.is_empty then "⚪️ - ".data else "⚫ - ".data) ++ l.command) ::
        replayGo μ oracle nTar (i + 1) (trueCount + if has then 1 else 0) rest
    else if nTar ≤ trueCount then
      ConvertEvent.commit ("Layer (tarball not found): ".data ++ l.command) ::
        replayGo μ oracle nTar (i + 1) (trueCount + 1) rest
    else
      ConvertEvent.commit ("🟢 - ".data ++ l.command) ::
        ((if oracle i then [] else
          [ConvertEvent.commit ("Layer (no detected changes): ".data ++ l.command)]) ++
         replayGo μ oracle nTar (i + 1) (trueCount + 1) rest)

/-- The observable action sequence of `ImageProcessor::convert` on its
success path: first `Image.md` is written with the complete metadata and
committed as `🛠️ - Metadata`, then the layer commits follow. -/
def convertTrace (μ : Type) (metadata : μ) (layers : List ProcLayer)
    (tarballs : List (List Str)) (oracle : Nat → Bool) : List (ConvertEvent μ) :=
  ConvertEvent.mdWrite metadata :: ConvertEvent.commit "🛠️ - Metadata".data ::
  (if layers = [] then []
   else if tarballs = [] then
     ConvertEvent.commit "Extract container filesystem".data ::
       layers.map (fun l => ConvertEvent.commit ("Layer: ".data ++ l.command))
   else
     replayGo μ oracle nTar₀ 0 0 (layers.zip (layerHasTarball layers nTar₀)))
where nTar₀ := tarballs.length

/-- The commit messages a `convert` run creates, in order. -/
def commitsOf (μ : Type) (tr : List (ConvertEvent μ)) : List Str :=
  tr.filterMap (fun e => match e with
    | ConvertEvent.commit msg => some msg
    | ConvertEvent.mdWrite _ => none)

/-- A repository as its commit-message list oldest→newest; a `convert`
run appends the commits it creates (`GitRepo::init` opens the existing
repository, and both `add_and_commit_file`, `commit_all_changes` and
`create_empty_commit` append a commit to `HEAD` unconditionally). -/
def runConvert (μ : Type) (repo : List Str) (metadata : μ)
    (layers : List ProcLayer) (tarballs : List (List Str))
    (oracle : Nat → Bool) : List Str :=
  repo ++ commitsOf μ (convertTrace μ metadata layers tarballs oracle)

/-! ## Basic lemmas about the string model -/

theorem isPrefixOf_iff_exists {α : Type} [BEq α] [LawfulBEq α] (p : List α) :
    ∀ s : List α, p.isPrefixOf s = true ↔ ∃ t, s = p ++ t := by
  induction p with
  | nil =>
    intro s
    simp [List.isPrefixOf]
  | cons a p ih =>
    intro s
    cases s with
    | nil =>
      simp [List.isPrefixOf]
    | cons b t =>
      simp only [List.isPrefixOf, Bool.and_eq_true, beq_iff_eq, ih,
        List.cons_append, List.cons.injEq]
      constructor
      · rintro ⟨rfl, u, rfl⟩
        exact ⟨u, rfl, rfl⟩
      · rintro ⟨u, rfl, rfl⟩
        exact ⟨rfl, u, rfl⟩

theorem getLast?_eq_some_iff {l : Str} {a : Char} :
    l.getLast? = some a ↔ ∃ t, l = t ++ [a] := by
  induction l with
  | nil => simp
  | cons b t ih =>
    cases t with
    | nil =>
      simp only [List.getLast?_singleton, Option.some.injEq]
      constructor
      · rintro rfl
        exact ⟨[], rfl⟩
      · rintro ⟨u, hu⟩
        cases u with
        | nil => simpa using hu
        | cons x xs =>
          simp only [List.cons_append, List.cons.injEq] at hu
          exact absurd hu.2 (by simp)
    | cons c u =>
      rw [List.getLast?_cons_cons, ih]
      constructor
      · rintro ⟨v, hv⟩
        exact ⟨b :: v, by simp [hv]⟩
      · rintro ⟨v, hv⟩
        cases v with
        | nil => simp at hv
        | cons x xs =>
          simp only [List.cons_append, List.cons.injEq] at hv
          exact ⟨xs, by simp [hv.2]⟩

/-! ## C10 — out-of-range positions never match (digest tracker) -/

/-- **C10.** For every `DigestTracker` and every position at or past the
end of its layer-digest chain, `layer_matches` returns `false` for any
queried layer: navigation over a shorter existing chain terminates with
a no-match rather than a failure. -/
theorem claim10_out_of_range (t : DigestTracker) (pos : Nat) (layer : Layer)
    (h : t.layer_digests.length ≤ pos) :
    layerMatches t pos layer = false := by
  unfold layerMatches getLayer
  rw [List.get?_eq_none.mpr h]

/-- Witness for C10 at a concrete tracker, position and layer. -/
theorem claim10_out_of_range_witness :
    layerMatches { layer_digests := [] } 3
      { id := "x".data, command := [], created_at := [], is_empty := false,
        tarball_path := none, digest := [], comment := none } = false :=
  claim10_out_of_range _ 3 _ (by decide)

/-! ## C8 — tar path normalization is escape-safe -/

/-- The invariant Rust's `Path::components` guarantees for `Normal`
components: a plain, nonempty name that is neither `.` nor `..` and has
no separator. -/
def plainName (s : Str) : Prop :=
  s ≠ [] ∧ s ≠ ".".data ∧ s ≠ "..".data ∧ '/' ∉ s

theorem normalizeTarPath_go_mem (p : List PathComp) : ∀ (out : List Str) (c : Str),
    c ∈ p.foldl normStep out →
    c ∈ out ∨ PathComp.normal c ∈ p := by
  induction p with
  | nil =>
    intro out c h
    exact Or.inl h
  | cons comp rest ih =>
    intro out c h
    rcases ih (normStep out comp) c h with h' | h'
    · cases comp with
      | curDir => exact Or.inl h'
      | parentDir => exact Or.inl (List.dropLast_subset _ h')
      | rootDir => exact Or.inl h'
      | prefixComp s => exact Or.inl h'
      | normal s =>
        rcases List.mem_append.mp h' with h'' | h''
        · exact Or.inl h''
        · simp only [List.mem_singleton] at h''
          exact Or.inr (by simp [h''])
    · exact Or.inr (List.mem_cons_of_mem _ h')

/-- Every component of a normalized tar path is a `Normal` component of
the input. -/
theorem normalizeTarPath_mem {p : List PathComp} {c : Str}
    (h : c ∈ normalizeTarPath p) : PathComp.normal c ∈ p := by
  rcases normalizeTarPath_go_mem p [] c h with h' | h'
  · simp at h'
  · exact h'

theorem resolveComps_of_plain (dest : List Str) :
    ∀ comps : List Str, (∀ c ∈ comps, plainName c) →
      resolveComps dest comps = dest ++ comps := by
  intro comps
  induction comps generalizing dest with
  | nil => intro _; simp [resolveComps]
  | cons c rest ih =>
    intro h
    have hc := h c (List.mem_cons_self c rest)
    have h1 : c ≠ "..".data := hc.2.2.1
    have h2 : c ≠ ".".data := hc.2.1
    simp only [resolveComps, List.foldl_cons, if_neg h1, if_neg h2]
    have := ih (dest ++ [c]) (fun x hx => h x (List.mem_cons_of_mem _ hx))
    simpa [resolveComps, List.append_assoc] using this

/-- **C8.** Normalizing an archive entry path yields only plain relative
name components (`.` dropped, `..` popped, root and prefix stripped), so
resolving the normalized path against the destination directory names a
location that still lies under the destination (the destination is a
prefix of the resolved path): escape outside the destination is
impossible. -/
theorem claim8_normalize_safe (p : List PathComp) (dest : List Str)
    (hp : ∀ s, PathComp.normal s ∈ p → plainName s) :
    (∀ c ∈ normalizeTarPath p, plainName c) ∧
    resolveComps dest (normalizeTarPath p) = dest ++ normalizeTarPath p ∧
    dest.isPrefixOf (resolveComps dest (normalizeTarPath p)) = true := by
  have hmem : ∀ c ∈ normalizeTarPath p, plainName c :=
    fun c hc => hp c (normalizeTarPath_mem hc)
  have hres := resolveComps_of_plain dest (normalizeTarPath p) hmem
  refine ⟨hmem, hres, ?_⟩
  rw [hres, (isPrefixOf_iff_exists dest _)]
  exact ⟨normalizeTarPath p, rfl⟩

/-- Witness for C8 on a concrete traversal-attempting path
`../../etc/passwd` against destination `/dest`. -/
theorem claim8_normalize_safe_witness :
    (∀ c ∈ normalizeTarPath
        [PathComp.parentDir, PathComp.parentDir,
         PathComp.normal "etc".data, PathComp.normal "passwd".data],
      plainName c) ∧
    resolveComps ["dest".data]
        (normalizeTarPath
          [PathComp.parentDir, PathComp.parentDir,
           PathComp.normal "etc".data, PathComp.normal "passwd".data]) =
      ["dest".data] ++ normalizeTarPath
          [PathComp.parentDir, PathComp.parentDir,
           PathComp.normal "etc".data, PathComp.normal "passwd".data] ∧
    ["dest".data].isPrefixOf (resolveComps ["dest".data]
        (normalizeTarPath
          [PathComp.parentDir, PathComp.parentDir,
           PathComp.normal "etc".data, PathComp.normal "passwd".data])) = true :=
  claim8_normalize_safe _ _ (by
    intro s hs
    simp only [List.mem_cons, List.not_mem_nil, or_false] at hs
    rcases hs with h | h | h | h
    · cases h
    · cases h
    · injection h with h₁
      subst h₁
      exact ⟨by decide, by decide, by decide, by decide⟩
    · injection h with h₁
      subst h₁
      exact ⟨by decide, by decide, by decide, by decide⟩)

/-! ## Replace/contains bridging lemmas -/

theorem replaceGo_single (a : Char) (sub : Str) :
    ∀ (fuel : Nat) (s : Str), s.length ≤ fuel →
      replaceGo [a] sub fuel s = s.flatMap (fun c => if c = a then sub else [c]) := by
  intro fuel
  induction fuel with
  | zero =>
    intro s hs
    rw [Nat.le_zero, List.length_eq_zero] at hs
    subst hs
    rfl
  | succ fuel ih =>
    intro s hs
    cases s with
    | nil => rfl
    | cons c rest =>
      simp only [List.length_cons, Nat.succ_le_succ_iff] at hs
      show replaceGo [a] sub (fuel + 1) (c :: rest) = _
      by_cases hac : a = c
      · subst hac
        have hpre : [a].isPrefixOf (a :: rest) = true := by
          simp [List.isPrefixOf]
        rw [replaceGo, if_pos ⟨by simp, hpre⟩]
        simp [ih rest hs]
      · have hpre : [a].isPrefixOf (c :: rest) = false := by
          simp [List.isPrefixOf]
          exact fun h => hac h
        rw [replaceGo, if_neg (by simp [hpre])]
        simp only [List.flatMap_cons]
        rw [if_neg (fun h => hac h.symm), ih rest hs]
        rfl

theorem replaceL_single (a : Char) (sub s : Str) :
    replaceL [a] sub s = s.flatMap (fun c => if c = a then sub else [c]) :=
  replaceGo_single a sub s.length s le_rfl

theorem replaceL_single_char (a b : Char) (s : Str) :
    replaceL [a] [b] s = s.map (fun c => if c = a then b else c) := by
  rw [replaceL_single]
  induction s with
  | nil => rfl
  | cons c rest ih =>
    by_cases h : c = a <;> simp [h, ih]

theorem containsL_iff_exists (pat : Str) :
    ∀ s : Str, containsL pat s = true ↔ ∃ l r, s = l ++ pat ++ r := by
  intro s
  induction s with
  | nil =>
    rw [containsL, isPrefixOf_iff_exists]
    constructor
    · rintro ⟨t, ht⟩
      exact ⟨[], t, ht⟩
    · rintro ⟨l, r, h⟩
      rcases List.append_eq_nil.mp h.symm with ⟨h₁, rfl⟩
      rcases List.append_eq_nil.mp h₁ with ⟨rfl, rfl⟩
      exact ⟨[], rfl⟩
  | cons c rest ih =>
    rw [containsL, Bool.or_eq_true, ih, isPrefixOf_iff_exists]
    constructor
    · rintro (⟨t, ht⟩ | ⟨l, r, hr⟩)
      · exact ⟨[], t, by simp [ht]⟩
      · exact ⟨c :: l, r, by simp [hr]⟩
    · rintro ⟨l, r, h⟩
      cases l with
      | nil =>
        exact Or.inl ⟨r, by simpa using h⟩
      | cons x xs =>
        simp only [List.cons_append, List.cons.injEq] at h
        exact Or.inr ⟨xs, r, h.2⟩

/-! ## C9 — container-reference branch naming -/

/-- What the claim states the branch base name is: the reference
lowercased, `/` and `@` replaced by `-`, `:` kept as the name/tag
separator, `:latest` appended when no tag is present. -/
def claimedBranchBase (image_name : Str) : Str :=
  let lowered := image_name.map Char.toLower
  let withTag :=
    if ¬lowered.contains ':' then lowered ++ ":latest".data else lowered
  withTag.map (fun c => if c = '/' then '-' else if c = '@' then '-' else c)

/-- **C9 counterexample.** On the reference `Ubuntu` the code neither
lowercases nor keeps `:` as the separator: it produces `Ubuntu#latest`,
not the `ubuntu:latest` the claim describes. -/
theorem claim9_counterexample :
    containerImageToBranch "Ubuntu".data = "Ubuntu#latest".data ∧
    claimedBranchBase "Ubuntu".data = "ubuntu:latest".data ∧
    containerImageToBranch "Ubuntu".data ≠ claimedBranchBase "Ubuntu".data := by
  refine ⟨by decide, by decide, by decide⟩

/-- **C9 (amended).** The branch base name is the reference — kept in its
original case — with `:latest` appended when it contains neither `:` nor
`@`, and then every `:` replaced by `#` and every `/` and `@` replaced by
`-`. -/
theorem claim9_branch_name (s : Str) :
    containerImageToBranch s =
      (if ¬s.contains ':' ∧ ¬s.contains '@' then s ++ ":latest".data else s).map
        (fun c => if c = ':' then '#'
                  else if c = '/' then '-'
                  else if c = '@' then '-' else c) := by
  unfold containerImageToBranch
  have h1 : (":").data = [':'] := rfl
  have h2 : ("#").data = ['#'] := rfl
  have h3 : ("/").data = ['/'] := rfl
  have h4 : ("@").data = ['@'] := rfl
  have h5 : ("-").data = ['-'] := rfl
  simp only [h1, h2, h3, h4, h5, replaceL_single_char, List.map_map]
  congr 1
  funext c
  simp only [Function.comp_apply]
  by_cases hc1 : c = ':'
  · subst hc1; rfl
  · rw [if_neg hc1]
    by_cases hc2 : c = '/'
    · subst hc2; rfl
    · rw [if_neg hc2]
      by_cases hc3 : c = '@'
      · subst hc3; rfl
      · simp [hc1, hc2, hc3]

/-! ## C6 — the digest tracker's match predicate -/

/-- The id-kept condition as the claim words it: `sha256:…` or the
`<empty-layer-N>` shape. -/
def idKeptClaim (id : Str) : Prop :=
  (∃ r, id = "sha256:".data ++ r) ∨
  (∃ n : Nat, id = "<empty-layer-".data ++ (Nat.repr n).data ++ ">".data)

/-- The match predicate exactly as the claim states it. -/
def layersMatchClaim (existing : LayerDigest) (nw : Layer) : Prop :=
  existing.is_empty = nw.is_empty ∧
  normTs existing.created = normTs nw.created_at ∧
  (existing.is_empty = true → existing.command = nw.command) ∧
  (existing.is_empty = false →
    (idKeptClaim nw.id ∧ existing.digest = nw.id) ∨
    (¬idKeptClaim nw.id ∧ existing.digest = "sha256:".data ++ nw.id))

/-- The id-kept condition the code actually implements: `sha256:…` or
any string that starts with `<` and ends with `>`. -/
def idKeptCode (id : Str) : Prop :=
  (∃ r, id = "sha256:".data ++ r) ∨ (∃ mid, id = '<' :: (mid ++ ['>']))

/-- The match predicate with the claim's normalization amended to the
code's angle-bracket check. -/
def layersMatchAmended (existing : LayerDigest) (nw : Layer) : Prop :=
  existing.is_empty = nw.is_empty ∧
  normTs existing.created = normTs nw.created_at ∧
  (existing.is_empty = true → existing.command = nw.command) ∧
  (existing.is_empty = false →
    (idKeptCode nw.id ∧ existing.digest = nw.id) ∨
    (¬idKeptCode nw.id ∧ existing.digest = "sha256:".data ++ nw.id))

theorem head_last_iff_brackets (id : Str) :
    (id.head? = some '<' ∧ id.getLast? = some '>') ↔
      ∃ mid, id = '<' :: (mid ++ ['>']) := by
  constructor
  · rintro ⟨hh, hl⟩
    rcases getLast?_eq_some_iff.mp hl with ⟨t, rfl⟩
    cases t with
    | nil => simp at hh
    | cons c t' =>
      simp only [List.cons_append, List.head?_cons, Option.some.injEq] at hh
      exact ⟨t', by simp [hh]⟩
  · rintro ⟨mid, rfl⟩
    refine ⟨rfl, ?_⟩
    exact getLast?_eq_some_iff.mpr ⟨'<' :: mid, by simp⟩

theorem extract_digest_characterization (id : Str) :
    (idKeptCode id ∧ extractDigestFromLayerId id = id) ∨
    (¬idKeptCode id ∧ extractDigestFromLayerId id = "sha256:".data ++ id) := by
  unfold extractDigestFromLayerId
  by_cases h1 : "sha256:".data.isPrefixOf id = true
  · rw [if_pos h1]
    exact Or.inl ⟨Or.inl ((isPrefixOf_iff_exists _ _).mp h1), rfl⟩
  · rw [if_neg h1]
    by_cases h2 : id.head? = some '<' ∧ id.getLast? = some '>'
    · rw [if_pos h2]
      exact Or.inl ⟨Or.inr ((head_last_iff_brackets id).mp h2), rfl⟩
    · rw [if_neg h2]
      refine Or.inr ⟨?_, rfl⟩
      rintro (hk | hk)
      · exact h1 ((isPrefixOf_iff_exists _ _).mpr hk)
      · exact h2 ((head_last_iff_brackets id).mpr hk)

/-- The concrete stored entry of the C6 counterexample: digest `<x>`. -/
def c6Existing : LayerDigest :=
  { digest := "<x>".data, command := [], created := "t".data,
    is_empty := false, comment := none }

/-- The concrete new layer of the C6 counterexample: id `<x>`. -/
def c6New : Layer :=
  { id := "<x>".data, command := [], created_at := "t".data,
    is_empty := false, tarball_path := none, digest := "<x>".data,
    comment := none }

/-- **C6 counterexample.** For the stored digest `<x>` and a new layer
with id `<x>` (equal timestamps, both non-empty), the code keeps the id
unchanged — it accepts any `<…>` string, not only the `<empty-layer-N>`
shape — and reports a match, while the claim's normalization would
prefix `sha256:` and report a mismatch. -/
theorem claim6_counterexample :
    ¬(layersMatch c6Existing c6New = true ↔ layersMatchClaim c6Existing c6New) := by
  intro h
  have hm : layersMatch c6Existing c6New = true := by decide
  have hc := h.mp hm
  rcases hc.2.2.2 rfl with ⟨hk, _⟩ | ⟨_, heq⟩
  · rcases hk with ⟨r, hr⟩ | ⟨n, hn⟩
    · have hr' : ('<' :: 'x' :: '>' :: []) = 's' :: ("ha256:".data ++ r) := hr
      injection hr' with h₁ _
      exact absurd h₁ (by decide)
    · have hn' : ('<' :: 'x' :: '>' :: []) =
          '<' :: 'e' :: (("mpty-layer-".data ++ (Nat.repr n).data) ++ ">".data) := hn
      injection hn' with _ h₂
      injection h₂ with h₃ _
      exact absurd h₃ (by decide)
  · have heq' : ('<' :: 'x' :: '>' :: []) = 's' :: ("ha256:".data ++ c6New.id) := heq
    injection heq' with h₁ _
    exact absurd h₁ (by decide)

/-- **C6 (amended).** The tracker's match predicate holds iff the
`is_empty` flags agree, the stored `created` and the new layer's
RFC-3339 timestamp are equal after replacing `Z` with `+00:00` in both,
and — for empty layers — the commands are exactly equal, while for
non-empty layers the stored digest equals the new layer's id normalized
by keeping it unchanged when it starts with `sha256:` **or starts with
`<` and ends with `>`**, and otherwise prefixing `sha256:`. -/
theorem claim6_layers_match (existing : LayerDigest) (nw : Layer) :
    layersMatch existing nw = true ↔ layersMatchAmended existing nw := by
  unfold layersMatch layersMatchAmended
  constructor
  · intro hm
    by_cases h1 : existing.is_empty = nw.is_empty
    · rw [if_neg (fun hne => hne h1)] at hm
      by_cases h2 : normTs existing.created = normTs nw.created_at
      · rw [if_neg (fun hne => hne h2)] at hm
        by_cases h3 : existing.is_empty = true
        · rw [if_pos h3] at hm
          exact ⟨h1, h2, fun _ => of_decide_eq_true hm,
            fun hf => absurd h3 (by simp [hf])⟩
        · rw [if_neg h3] at hm
          have hdg : existing.digest = extractDigestFromLayerId nw.id :=
            of_decide_eq_true hm
          refine ⟨h1, h2, fun ht => absurd ht h3, fun _ => ?_⟩
          rcases extract_digest_characterization nw.id with ⟨hk, he⟩ | ⟨hk, he⟩
          · exact Or.inl ⟨hk, by rw [hdg, he]⟩
          · exact Or.inr ⟨hk, by rw [hdg, he]⟩
      · rw [if_pos h2] at hm
        cases hm
    · rw [if_pos h1] at hm
      cases hm
  · rintro ⟨h1, h2, h3, h4⟩
    rw [if_neg (fun hne => hne h1), if_neg (fun hne => hne h2)]
    by_cases he : existing.is_empty = true
    · rw [if_pos he]
      exact decide_eq_true (h3 he)
    · rw [if_neg he]
      have hf : existing.is_empty = false := by simpa using he
      rcases h4 hf with ⟨hk, heq⟩ | ⟨hk, heq⟩ <;>
        rcases extract_digest_characterization nw.id with ⟨hk', he'⟩ | ⟨hk', he'⟩
      · exact decide_eq_true (by rw [heq, he'])
      · exact absurd hk hk'
      · exact absurd hk' hk
      · exact decide_eq_true (by rw [heq, he'])

/-! ## C5 — shell wrapper stripping in the derived command -/

/-- The command derivation as the claim states it: strip a single
**leading** wrapper occurrence (`/bin/sh -c #(nop) ` tried first, then
`/bin/sh -c `), left-trim, and otherwise keep `created_by` verbatim. -/
def claimCommandStrip (created_by : Str) : Str :=
  if shellNop.isPrefixOf created_by then
    trimStart (created_by.drop shellNop.length)
  else if shellWrap.isPrefixOf created_by then
    trimStart (created_by.drop shellWrap.length)
  else created_by

/-- **C5 counterexample.** For `created_by = "echo /bin/sh -c hi"` the
wrapper only occurs embedded, never as a leading prefix, so the claim
says the text is preserved verbatim — but the code tests with
`contains` and rewrites with `replace`, so it deletes the embedded
occurrence and produces `"echo hi"`. -/
theorem claim5_counterexample :
    normalizeCommand "echo /bin/sh -c hi".data = "echo hi".data ∧
    claimCommandStrip "echo /bin/sh -c hi".data = "echo /bin/sh -c hi".data ∧
    normalizeCommand "echo /bin/sh -c hi".data ≠
      claimCommandStrip "echo /bin/sh -c hi".data := by
  refine ⟨by decide, by decide, by decide⟩

/-- **C5 (amended).** The derived command equals `created_by` with
**every** occurrence of the wrapper removed — the `#(nop)` form when it
occurs anywhere in the string, else the plain form when it occurs
anywhere — and the result left-trimmed; only when neither wrapper occurs
anywhere in `created_by` is the text preserved verbatim. -/
theorem claim5_command_strip (cb : Str) :
    ((∃ l r, cb = l ++ shellNop ++ r) →
      normalizeCommand cb = trimStart (replaceL shellNop [] cb)) ∧
    (¬(∃ l r, cb = l ++ shellNop ++ r) → (∃ l r, cb = l ++ shellWrap ++ r) →
      normalizeCommand cb = trimStart (replaceL shellWrap [] cb)) ∧
    (¬(∃ l r, cb = l ++ shellNop ++ r) → ¬(∃ l r, cb = l ++ shellWrap ++ r) →
      normalizeCommand cb = cb) := by
  refine ⟨fun h₁ => ?_, fun h₁ h₂ => ?_, fun h₁ h₂ => ?_⟩
  · unfold normalizeCommand
    rw [if_pos ((containsL_iff_exists shellNop cb).mpr h₁)]
  · unfold normalizeCommand
    rw [if_neg (by
        intro hc
        exact h₁ ((containsL_iff_exists shellNop cb).mp hc)),
      if_pos ((containsL_iff_exists shellWrap cb).mpr h₂)]
  · unfold normalizeCommand
    rw [if_neg (by
        intro hc
        exact h₁ ((containsL_iff_exists shellNop cb).mp hc)),
      if_neg (by
        intro hc
        exact h₂ ((containsL_iff_exists shellWrap cb).mp hc))]

/-- Witness for C5 at `created_by = "/bin/sh -c #(nop) ENV A=1"`. -/
theorem claim5_command_strip_witness :
    normalizeCommand "/bin/sh -c #(nop) ENV A=1".data = "ENV A=1".data := by
  have h := (claim5_command_strip "/bin/sh -c #(nop) ENV A=1".data).1
    ⟨[], "ENV A=1".data, by decide⟩
  rw [h]
  decide

/-! ## C7 — metadata parse failures during successor navigation -/

/-- **C7.** During successor navigation `find_branch_point` never
returns an error — in particular no candidate's `Image.md` content can
make it fail, because `parse_markdown` succeeds on every input — and a
candidate whose `Image.md` content yields a layer chain that does not
match the queried layer at the queried position is treated exactly as a
non-match: scanning that candidate continues with the remaining
candidates. -/
theorem claim7_parse_failure_no_error (repo : RepoModel) (newLayers : List Layer) :
    (∃ r, findBranchPoint repo newLayers = Except.ok r) ∧
    (∀ (c : Nat) (cs : List Nat) (pos : Nat) (layer : Layer) (content : Str),
      repo.readFile c = some content →
      layerMatches { layer_digests := (parseMarkdown content).layer_digests }
          pos layer = false →
      scanCandidates repo (c :: cs) pos layer = scanCandidates repo cs pos layer) := by
  have hcommit : ∀ (c : Nat) (pos : Nat) (layer : Layer),
      ∃ b, commitHasLayerAt repo c pos layer = Except.ok b := by
    intro c pos layer
    unfold commitHasLayerAt readDigestsFromCommit parseMarkdownRes
    cases repo.readFile c <;> simp
  have hscan : ∀ (cands : List Nat) (pos : Nat) (layer : Layer),
      ∃ o, scanCandidates repo cands pos layer = Except.ok o := by
    intro cands
    induction cands with
    | nil => intro pos layer; exact ⟨none, rfl⟩
    | cons c cs ih =>
      intro pos layer
      rcases hcommit c pos layer with ⟨b, hb⟩
      cases b with
      | true => exact ⟨some c, by rw [scanCandidates, hb]⟩
      | false =>
        rcases ih pos layer with ⟨o, ho⟩
        exact ⟨o, by rw [scanCandidates, hb]; exact ho⟩
  constructor
  · unfold findBranchPoint
    by_cases hnil : newLayers = []
    · rw [if_pos hnil]
      exact ⟨(none, 0), rfl⟩
    · rw [if_neg hnil]
      clear hnil
      have : ∀ (rest : List Layer) (current : Option Nat) (i : Nat),
          ∃ r, findGo repo current i rest = Except.ok r := by
        intro rest
        induction rest with
        | nil => intro current i; exact ⟨(current, i), rfl⟩
        | cons layer rest ih =>
          intro current i
          rcases hscan (repo.succ current) i layer with ⟨o, ho⟩
          cases o with
          | none => exact ⟨(current, i), by rw [findGo, ho]⟩
          | some c =>
            rcases ih (some c) (i + 1) with ⟨r, hr⟩
            exact ⟨r, by rw [findGo, ho]; exact hr⟩
      exact this newLayers none 0
  · intro c cs pos layer content hread hnomatch
    have hb : commitHasLayerAt repo c pos layer = Except.ok false := by
      unfold commitHasLayerAt readDigestsFromCommit parseMarkdownRes
      rw [hread]
      simpa using hnomatch
    rw [scanCandidates, hb]

/-- Witness for C7: a candidate commit whose `Image.md` is the
non-metadata text `not markdown` is skipped, and navigation returns
`Ok` on a repository whose only candidate it is. -/
theorem claim7_witness :
    scanCandidates
        { succ := fun _ => [0], readFile := fun _ => some "not markdown".data }
        [0] 0
        { id := "x".data, command := [], created_at := "t".data,
          is_empty := false, tarball_path := none, digest := "d".data,
          comment := none } =
      scanCandidates
        { succ := fun _ => [0], readFile := fun _ => some "not markdown".data }
        [] 0
        { id := "x".data, command := [], created_at := "t".data,
          is_empty := false, tarball_path := none, digest := "d".data,
          comment := none } :=
  (claim7_parse_failure_no_error
      { succ := fun _ => [0], readFile := fun _ => some "not markdown".data }
      []).2 0 [] 0 _ "not markdown".data rfl (by decide)

/-! ## C4 — layer reconstruction from history and manifest layers -/

/-- The record an `empty_layer = true` history entry yields. -/
def emptyLayerRec (chrono : Str → Str) (i : Nat) (h : HistEntry) : Layer :=
  { id := "<empty-layer-".data ++ (Nat.repr i).data ++ ">".data,
    command := normalizeCommand (h.created_by.getD []),
    created_at := chrono (h.created.getD "1970-01-01T00:00:00Z".data),
    is_empty := true, tarball_path := none,
    digest := "empty".data, comment := h.comment }

/-- The record a blob-backed (non-empty, index still positive) history
entry yields, associated with `Layers[idx']`. -/
def blobLayerRec (chrono : Str → Str) (tarballs : List (List Str))
    (idx' : Nat) (i : Nat) (h : HistEntry) : Layer :=
  { id := ((tarballs.getD idx' []).getLast?).getD
      ("layer-".data ++ (Nat.repr i).data),
    command := normalizeCommand (h.created_by.getD []),
    created_at := chrono (h.created.getD "1970-01-01T00:00:00Z".data),
    is_empty := false, tarball_path := some (tarballs.getD idx' []),
    digest := extractDigestFromTarballPath (tarballs.getD idx' []),
    comment := h.comment }

/-- The record a non-empty history entry reached after the tarball index
hit zero yields. -/
def noTarballRec (chrono : Str → Str) (i : Nat) (h : HistEntry) : Layer :=
  { id := "<empty-layer-".data ++ (Nat.repr i).data ++ ">".data,
    command := normalizeCommand (h.created_by.getD []),
    created_at := chrono (h.created.getD "1970-01-01T00:00:00Z".data),
    is_empty := false, tarball_path := none,
    digest := "no-tarball".data, comment := h.comment }

/-- The layer reconstruction as the claim words it: walk the (reverse)
enumerated history carrying a tarball index that starts at the number of
manifest layers; `empty_layer = true` yields a record with digest token
`empty` and no tarball; a non-empty entry while the index is positive
decrements it and is associated with `Layers[index]`, its digest
canonicalized from the blob path; a non-empty entry after the index hit
zero yields the digest token `no-tarball`; the result is reversed by the
caller. -/
def loadSpecGo (chrono : Str → Str) (tarballs : List (List Str)) :
    Nat → List (Nat × HistEntry) → List Layer
  | _, [] => []
  | idx, (i, h) :: rest =>
    if h.empty_layer.getD false then
      emptyLayerRec chrono i h :: loadSpecGo chrono tarballs idx rest
    else if 0 < idx then
      blobLayerRec chrono tarballs (idx - 1) i h ::
        loadSpecGo chrono tarballs (idx - 1) rest
    else
      noTarballRec chrono i h :: loadSpecGo chrono tarballs idx rest

theorem loadStep_foldl (chrono : Str → Str) (tarballs : List (List Str)) :
    ∀ (l : List (Nat × HistEntry)) (idx : Nat) (acc : List Layer),
      (l.foldl (loadStep chrono tarballs) (idx, acc)).2 =
        acc ++ loadSpecGo chrono tarballs idx l := by
  intro l
  induction l with
  | nil => intro idx acc; simp [loadSpecGo]
  | cons p rest ih =>
    intro idx acc
    obtain ⟨i, h⟩ := p
    rw [List.foldl_cons]
    by_cases he : h.empty_layer.getD false = true
    · have hstep : loadStep chrono tarballs (idx, acc) (i, h) =
          (idx, acc ++ [emptyLayerRec chrono i h]) := by
        unfold loadStep emptyLayerRec
        rw [if_neg (by simp [he])]
        simp [he]
      rw [hstep, ih]
      simp [loadSpecGo, he]
    · have he' : h.empty_layer.getD false = false := by simpa using he
      by_cases hidx : 0 < idx
      · have hstep : loadStep chrono tarballs (idx, acc) (i, h) =
            (idx - 1, acc ++ [blobLayerRec chrono tarballs (idx - 1) i h]) := by
          unfold loadStep blobLayerRec
          rw [if_pos ⟨by simp [he'], hidx⟩]
          simp [he']
        rw [hstep, ih]
        simp [loadSpecGo, he', hidx]
      · have hstep : loadStep chrono tarballs (idx, acc) (i, h) =
            (idx, acc ++ [noTarballRec chrono i h]) := by
          unfold loadStep noTarballRec
          rw [if_neg (by
            rintro ⟨-, hpos⟩
            exact hidx hpos)]
          simp [he']
        rw [hstep, ih]
        simp [loadSpecGo, he', hidx]

/-- **C4.** `load_layers_from_dir`'s reconstruction walks the history in
reverse with a tarball index initialized to the length of the manifest
`Layers` array; an `empty_layer = true` entry yields digest token
`empty` and no tarball; a non-empty entry decrements the index and is
associated with `Layers[index]` with its digest canonicalized from the
blob path; a non-empty entry reached after the index hit zero yields
digest token `no-tarball`; the accumulated vector is reversed so the
returned layers are oldest→newest. -/
theorem claim4_layer_walk (chrono : Str → Str) (history : List HistEntry)
    (tarballs : List (List Str)) :
    loadLayers chrono history tarballs =
      (loadSpecGo chrono tarballs tarballs.length history.enum.reverse).reverse := by
  unfold loadLayers
  dsimp only
  rw [loadStep_foldl chrono tarballs history.enum.reverse tarballs.length []]
  simp

/-! ## C2 — when the metadata commit happens -/

theorem replayGo_only_commits (μ : Type) (oracle : Nat → Bool) (nTar : Nat) :
    ∀ (ps : List (ProcLayer × Bool)) (i trueCount : Nat),
      ∀ e ∈ replayGo μ oracle nTar i trueCount ps, ∃ msg, e = ConvertEvent.commit msg := by
  intro ps
  induction ps with
  | nil =>
    intro i trueCount e he
    simp [replayGo] at he
  | cons p rest ih =>
    intro i trueCount e he
    obtain ⟨l, has⟩ := p
    rw [replayGo] at he
    by_cases h1 : (l.is_empty || !has) = true
    · rw [if_pos h1] at he
      rcases List.mem_cons.mp he with rfl | he'
      · exact ⟨_, rfl⟩
      · exact ih _ _ e he'
    · rw [if_neg h1] at he
      by_cases h2 : nTar ≤ trueCount
      · rw [if_pos h2] at he
        rcases List.mem_cons.mp he with rfl | he'
        · exact ⟨_, rfl⟩
        · exact ih _ _ e he'
      · rw [if_neg h2] at he
        rcases List.mem_cons.mp he with rfl | he'
        · exact ⟨_, rfl⟩
        · rcases List.mem_append.mp he' with he'' | he''
          · by_cases h3 : oracle i = true
            · rw [if_pos h3] at he''
              simp at he''
            · rw [if_neg h3] at he''
              simp only [List.mem_singleton] at he''
              exact ⟨_, he''⟩
          · exact ih _ _ e he''

/-- All events after the leading `mdWrite`/metadata commit of a
`convert` run are commits. -/
theorem convertTrace_tail_commits (μ : Type) (m : μ) (layers : List ProcLayer)
    (tarballs : List (List Str)) (oracle : Nat → Bool) :
    ∃ rest, convertTrace μ m layers tarballs oracle =
        ConvertEvent.mdWrite m ::
          ConvertEvent.commit "🛠️ - Metadata".data :: rest ∧
      ∀ e ∈ rest, ∃ msg, e = ConvertEvent.commit msg := by
  unfold convertTrace
  refine ⟨_, rfl, ?_⟩
  intro e he
  by_cases h1 : layers = []
  · rw [if_pos h1] at he
    simp at he
  · rw [if_neg h1] at he
    by_cases h2 : tarballs = []
    · rw [if_pos h2] at he
      rcases List.mem_cons.mp he with rfl | he'
      · exact ⟨_, rfl⟩
      · rcases List.mem_map.mp he' with ⟨l, -, rfl⟩
        exact ⟨_, rfl⟩
    · rw [if_neg h2] at he
      exact replayGo_only_commits μ oracle _ _ _ _ e he

/-- The concrete empty layer used by the C2/C3 counterexamples. -/
def c2Layer : ProcLayer :=
  { id := "<empty-layer-0>".data, command := "ENV A=1".data,
    created_at := "t".data, is_empty := true }

/-- **C2 counterexample.** A run over one declared-empty history entry
and one manifest tarball creates the `🛠️ - Metadata` commit **first**;
the layer commit follows it, so the metadata commit is not created after
the layer commits and is not the last commit of the run. -/
theorem claim2_counterexample :
    commitsOf Unit (convertTrace Unit () [c2Layer] [["blob".data]] (fun _ => true)) =
      ["🛠️ - Metadata".data, "⚪️ - ENV A=1".data] ∧
    (commitsOf Unit
        (convertTrace Unit () [c2Layer] [["blob".data]] (fun _ => true))).getLast? ≠
      some "🛠️ - Metadata".data := by
  refine ⟨by decide, by decide⟩

/-- **C2 (amended).** In every run of `convert` the complete `Image.md`
(basic info, container config and full layer chain) is written exactly
once, **before** any commit, and committed as the run's **first** commit
with message `🛠️ - Metadata`; no commit during layer replay rewrites
`Image.md` (every later event is a plain layer commit). -/
theorem claim2_metadata_commit_first (μ : Type) (m : μ) (layers : List ProcLayer)
    (tarballs : List (List Str)) (oracle : Nat → Bool) :
    ∃ rest, convertTrace μ m layers tarballs oracle =
        ConvertEvent.mdWrite m ::
          ConvertEvent.commit "🛠️ - Metadata".data :: rest ∧
      ∀ m' : μ, ConvertEvent.mdWrite m' ∉ rest := by
  rcases convertTrace_tail_commits μ m layers tarballs oracle with ⟨rest, htr, hcom⟩
  refine ⟨rest, htr, ?_⟩
  intro m' hmem
  rcases hcom _ hmem with ⟨msg, hmsg⟩
  cases hmsg

/-! ## C3 — a second identical `convert` run is not a no-op -/

/-- **C3 counterexample.** Converting the same one-layer image twice
into the same repository: the second run creates new commits (the
commit list strictly grows and the metadata commit is duplicated),
instead of detecting the existing identical chain and returning without
committing.  `find_branch_point` is never consulted by `convert`. -/
theorem claim3_counterexample :
    runConvert Unit (runConvert Unit [] () [c2Layer] [["blob".data]] (fun _ => true))
        () [c2Layer] [["blob".data]] (fun _ => true) ≠
      runConvert Unit [] () [c2Layer] [["blob".data]] (fun _ => true) ∧
    (runConvert Unit (runConvert Unit [] () [c2Layer] [["blob".data]] (fun _ => true))
        () [c2Layer] [["blob".data]] (fun _ => true)).length =
      2 * (runConvert Unit [] () [c2Layer] [["blob".data]] (fun _ => true)).length := by
  refine ⟨by decide, by decide⟩

/-- **C3 (amended).** Running `convert` twice with the same image and
output directory is **not** idempotent: `convert` never consults the
successor navigator and never returns early on an existing branch; every
run — the second included — re-executes the pipeline and appends its
full commit sequence (at least the metadata commit) to the repository. -/
theorem claim3_second_run_appends (μ : Type) (repo : List Str) (m : μ)
    (layers : List ProcLayer) (tarballs : List (List Str)) (oracle : Nat → Bool) :
    runConvert μ repo m layers tarballs oracle =
      repo ++ commitsOf μ (convertTrace μ m layers tarballs oracle) ∧
    repo.length < (runConvert μ repo m layers tarballs oracle).length := by
  refine ⟨rfl, ?_⟩
  rcases convertTrace_tail_commits μ m layers tarballs oracle with ⟨rest, htr, -⟩
  unfold runConvert
  rw [htr]
  simp only [commitsOf, List.filterMap_cons, List.length_append]
  simp

/-! ## C1 support: lines of a rendered document -/

theorem splitOnChar_line (sep : Char) :
    ∀ (l rest : Str), sep ∉ l →
      splitOnChar sep (l ++ sep :: rest) = l :: splitOnChar sep rest := by
  intro l
  induction l with
  | nil =>
    intro rest _
    simp [splitOnChar]
  | cons c l' ih =>
    intro rest hmem
    have hc : ¬c = sep := fun h => hmem (by simp [h])
    have hl' : sep ∉ l' := fun h => hmem (List.mem_cons_of_mem _ h)
    simp only [List.cons_append, splitOnChar, if_neg hc, List.append_eq]
    rw [ih rest hl']

theorem splitOnChar_unlines (ls : List Str) (h : ∀ l ∈ ls, ('\n' : Char) ∉ l) :
    splitOnChar '\n' (unlines ls) = ls ++ [[]] := by
  induction ls with
  | nil => rfl
  | cons l ls ih =>
    rw [unlines, splitOnChar_line '\n' l (unlines ls) (h l (by simp)),
      ih (fun x hx => h x (List.mem_cons_of_mem _ hx))]
    rfl

theorem stripCR_eq_self {l : Str} (h : l.getLast? ≠ some '\r') : stripCR l = l := by
  unfold stripCR
  rw [if_neg h]

/-- For a `\n`-joined list of lines that contain no `\n` and do not end
in `\r`, Rust's `lines()` recovers exactly the list. -/
theorem linesOf_unlines (ls : List Str)
    (h : ∀ l ∈ ls, ('\n' : Char) ∉ l ∧ l.getLast? ≠ some '\r') :
    linesOf (unlines ls) = ls := by
  cases ls with
  | nil => rfl
  | cons l₀ ls₀ =>
    have hsplit := splitOnChar_unlines (l₀ :: ls₀) (fun x hx => (h x hx).1)
    have hne : unlines (l₀ :: ls₀) ≠ [] := by
      rw [unlines]
      rcases l₀ with _ | ⟨c, l₀'⟩ <;> simp
    unfold linesOf
    rw [if_neg hne]
    simp only [hsplit]
    rw [if_pos (by rw [List.getLast?_concat])]
    rw [List.dropLast_concat]
    have : ∀ x ∈ l₀ :: ls₀, stripCR x = x := fun x hx => stripCR_eq_self (h x hx).2
    rw [List.map_congr_left (fun x hx => this x hx)]
    simp

/-! ## C1 support: trim lemmas -/

theorem trimStart_cons_ws {c : Char} (h : isWs c = true) (s : Str) :
    trimStart (c :: s) = trimStart s := by
  simp [trimStart, List.dropWhile_cons, h]

theorem trimStart_cons_not_ws {c : Char} (h : isWs c = false) (s : Str) :
    trimStart (c :: s) = c :: s := by
  simp [trimStart, List.dropWhile_cons, h]

theorem trimEnd_concat_ws {c : Char} (h : isWs c = true) (s : Str) :
    trimEnd (s ++ [c]) = trimEnd s := by
  simp [trimEnd, List.reverse_append, List.dropWhile_cons, h]

theorem trimEnd_concat_not_ws {c : Char} (h : isWs c = false) (s : Str) :
    trimEnd (s ++ [c]) = s ++ [c] := by
  simp [trimEnd, List.reverse_append, List.dropWhile_cons, h]

theorem trim_cons_ws {c : Char} (h : isWs c = true) (s : Str) :
    trim (c :: s) = trim s := by
  unfold trim
  rw [trimStart_cons_ws h]

theorem trim_concat_ws {c : Char} (h : isWs c = true) (s : Str) :
    trim (s ++ [c]) = trim s := by
  unfold trim trimStart
  rw [List.dropWhile_append]
  by_cases he : (s.dropWhile isWs).isEmpty = true
  · rw [if_pos he]
    have h1 : List.dropWhile isWs [c] = [] := by simp [List.dropWhile_cons, h]
    rw [h1, List.isEmpty_iff.mp he]
  · rw [if_neg he]
    exact trimEnd_concat_ws h _

theorem trim_eq_self_of_ends {s : Str}
    (h₁ : ∀ c, s.head? = some c → isWs c = false)
    (h₂ : ∀ c, s.getLast? = some c → isWs c = false) :
    trim s = s := by
  cases hlast : s.getLast? with
  | none =>
    cases s with
    | nil => rfl
    | cons c s' => simp [List.getLast?_eq_none_iff] at hlast
  | some a =>
    have ha := h₂ a hlast
    rcases getLast?_eq_some_iff.mp hlast with ⟨t, rfl⟩
    unfold trim
    cases t with
    | nil =>
      rw [List.nil_append, trimStart_cons_not_ws (h₁ a rfl)]
      simpa using trimEnd_concat_not_ws ha []
    | cons c t' =>
      rw [List.cons_append, trimStart_cons_not_ws (h₁ c rfl)]
      simpa using trimEnd_concat_not_ws ha (c :: t')

/-- Trimming a string padded with one space on each side (our table
cells) equals trimming the string itself. -/
theorem trim_pad (s : Str) : trim (' ' :: (s ++ [' '])) = trim s := by
  rw [trim_cons_ws (by decide), trim_concat_ws (by decide)]

/-! ## C1 support: pipe escaping and unescaping -/

/-- Character-wise form of the pipe escaping. -/
def esc1 (c : Char) : Str := if c = '|' then ['\\', '|'] else [c]

/-- Character-wise form of `escPipes`. -/
def escF (s : Str) : Str := s.flatMap esc1

theorem escPipes_eq_escF (s : Str) : escPipes s = escF s := by
  unfold escPipes escF
  rw [show "|".data = ['|'] from rfl, replaceL_single]
  rfl

/-- Recursive form of the `\|` unescaping `replace("\\|", "|")`. -/
def unescF : Str → Str
  | [] => []
  | [c] => [c]
  | c₁ :: c₂ :: rest =>
    if c₁ = '\\' ∧ c₂ = '|' then '|' :: unescF rest
    else c₁ :: unescF (c₂ :: rest)

theorem replaceGo_unesc : ∀ (fuel : Nat) (s : Str), s.length ≤ fuel →
    replaceGo "\\|".data "|".data fuel s = unescF s := by
  intro fuel
  induction fuel with
  | zero =>
    intro s hs
    rw [Nat.le_zero, List.length_eq_zero] at hs
    subst hs
    rfl
  | succ fuel ih =>
    intro s hs
    cases s with
    | nil => rfl
    | cons c rest =>
      cases rest with
      | nil =>
        show replaceGo _ _ (fuel + 1) [c] = _
        rw [replaceGo, if_neg (by
          rintro ⟨-, hpre⟩
          rcases (isPrefixOf_iff_exists _ _).mp hpre with ⟨t, ht⟩
          simp only [show "\\|".data = ['\\', '|'] from rfl] at ht
          have := congrArg List.length ht
          simp at this)]
        rw [show replaceGo "\\|".data "|".data fuel [] = [] by cases fuel <;> rfl]
        rfl
      | cons c₂ rest₂ =>
        simp only [List.length_cons, Nat.succ_le_succ_iff] at hs
        show replaceGo _ _ (fuel + 1) (c :: c₂ :: rest₂) = _
        by_cases hp : c = '\\' ∧ c₂ = '|'
        · obtain ⟨rfl, rfl⟩ := hp
          rw [replaceGo, if_pos ⟨by simp, by simp [List.isPrefixOf, List.isPrefixOf_nil_left]⟩]
          rw [show (('\\' :: '|' :: rest₂).drop "\\|".data.length) = rest₂ from rfl]
          rw [ih rest₂ (by omega)]
          rfl
        · rw [replaceGo, if_neg (by
            rintro ⟨-, hpre⟩
            rcases (isPrefixOf_iff_exists _ _).mp hpre with ⟨t, ht⟩
            simp only [show "\\|".data = ['\\', '|'] from rfl, List.cons_append,
              List.cons.injEq] at ht
            exact hp ⟨ht.1, ht.2.1⟩)]
          rw [ih (c₂ :: rest₂) (by simpa using hs)]
          rw [unescF, if_neg hp]

theorem unescL_eq (s : Str) : replaceL "\\|".data "|".data s = unescF s :=
  replaceGo_unesc s.length s le_rfl

theorem escF_eq_nil {t : Str} (h : escF t = []) : t = [] := by
  cases t with
  | nil => rfl
  | cons c t' =>
    unfold escF esc1 at h
    by_cases hc : c = '|' <;> simp [hc] at h

theorem escF_head_not_pipe (t : Str) : ∀ d, (escF t).head? = some d → d ≠ '|' := by
  intro d hd
  cases t with
  | nil => simp [escF] at hd
  | cons c t' =>
    unfold escF esc1 at hd
    by_cases hc : c = '|'
    · simp [hc] at hd
      subst hd
      decide
    · simp [hc] at hd
      rcases hd with ⟨rfl⟩
      exact hc

theorem unescF_escF (s : Str) : unescF (escF s) = s := by
  induction s with
  | nil => rfl
  | cons c t ih =>
    show unescF (esc1 c ++ escF t) = c :: t
    by_cases hc : c = '|'
    · subst hc
      show unescF ('\\' :: '|' :: escF t) = _
      rw [unescF, if_pos ⟨rfl, rfl⟩, ih]
    · rw [show esc1 c = [c] by simp [esc1, hc], List.singleton_append]
      cases he : escF t with
      | nil =>
        rw [escF_eq_nil he]
        rfl
      | cons d rest =>
        rw [unescF, if_neg (by
          rintro ⟨rfl, rfl⟩
          exact escF_head_not_pipe t '|' (by rw [he]; rfl) rfl)]
        rw [← he, ih]

theorem mem_escF {c : Char} {s : Str} (h : c ∈ escF s) : c ∈ s ∨ c = '\\' := by
  unfold escF at h
  rcases List.mem_flatMap.mp h with ⟨a, ha, hc⟩
  unfold esc1 at hc
  by_cases hap : a = '|'
  · rw [if_pos hap] at hc
    rcases List.mem_cons.mp hc with rfl | hc'
    · exact Or.inr rfl
    · simp only [List.mem_singleton] at hc'
      subst hc'
      exact Or.inl (hap ▸ ha)
  · rw [if_neg hap] at hc
    simp only [List.mem_singleton] at hc
    subst hc
    exact Or.inl ha

theorem escF_append (a b : Str) : escF (a ++ b) = escF a ++ escF b := by
  simp [escF]

/-! ## C1 support: backtick removal -/

theorem tick_removal_eq (s : Str) :
    replaceL "`".data [] s = s.flatMap (fun c => if c = '`' then [] else [c]) := by
  rw [show "`".data = ['`'] from rfl, replaceL_single]

theorem tick_removal_no_tick {s : Str} (h : ('`' : Char) ∉ s) :
    replaceL "`".data [] s = s := by
  rw [tick_removal_eq]
  induction s with
  | nil => rfl
  | cons c t ih =>
    have hc : ¬c = '`' := fun hc => h (by simp [hc])
    simp only [List.flatMap_cons, if_neg hc, List.singleton_append, List.cons.injEq]
    exact ⟨trivial, ih (fun hm => h (List.mem_cons_of_mem _ hm))⟩

theorem tick_removal_wrap {x : Str} (h : ('`' : Char) ∉ x) :
    replaceL "`".data [] ('`' :: (x ++ ['`'])) = x := by
  rw [tick_removal_eq]
  have hx := tick_removal_no_tick h
  rw [tick_removal_eq] at hx
  simp only [List.flatMap_cons, if_pos rfl, List.flatMap_append, hx]
  simp

/-! ## C1 support: row tokenization at unescaped pipes -/

/-- No unescaped pipe occurs in `s` when scanned with previous character
`prev`. -/
def noUnescPipe (prev : Option Char) : Str → Bool
  | [] => true
  | c :: rest =>
    if c = '|' ∧ prev ≠ some '\\' then false else noUnescPipe (some c) rest

/-- The previous-character state after scanning `seg` from `prev`. -/
def lastPrev (prev : Option Char) (seg : Str) : Option Char :=
  match seg.getLast? with
  | some c => some c
  | none => prev

theorem lastPrev_cons (prev : Option Char) (c : Char) (seg : Str) :
    lastPrev prev (c :: seg) = lastPrev (some c) seg := by
  cases seg with
  | nil => rfl
  | cons d t =>
    unfold lastPrev
    rw [List.getLast?_cons_cons]
    cases hg : (d :: t).getLast? with
    | none => simp [List.getLast?_eq_none_iff] at hg
    | some e => rfl

theorem lastPrev_concat (prev : Option Char) (x : Str) (a : Char) :
    lastPrev prev (x ++ [a]) = some a := by
  unfold lastPrev
  rw [List.getLast?_concat]

theorem splitUPGo_through : ∀ (seg : Str) (prev : Option Char) (cur rest : Str),
    noUnescPipe prev seg = true →
    splitUPGo cur prev (seg ++ rest) =
      splitUPGo (cur ++ seg) (lastPrev prev seg) rest := by
  intro seg
  induction seg with
  | nil =>
    intro prev cur rest _
    simp [lastPrev]
  | cons c seg' ih =>
    intro prev cur rest hno
    rw [noUnescPipe] at hno
    by_cases hcond : c = '|' ∧ prev ≠ some '\\'
    · rw [if_pos hcond] at hno
      cases hno
    · rw [if_neg hcond] at hno
      rw [List.cons_append, splitUPGo, if_neg hcond, ih (some c) (cur ++ [c]) rest hno,
        lastPrev_cons]
      congr 1
      simp

theorem splitUPGo_cut (cur : Str) (prev : Option Char) (h : prev ≠ some '\\')
    (rest : Str) :
    splitUPGo cur prev ('|' :: rest) = cur :: splitUPGo [] (some '|') rest := by
  rw [splitUPGo, if_pos ⟨rfl, h⟩]

theorem noUnescPipe_of_no_pipe {s : Str} (h : ('|' : Char) ∉ s) :
    ∀ prev, noUnescPipe prev s = true := by
  induction s with
  | nil => intro prev; rfl
  | cons c t ih =>
    intro prev
    rw [noUnescPipe, if_neg (by
      rintro ⟨rfl, -⟩
      exact h (by simp))]
    exact ih (fun hm => h (List.mem_cons_of_mem _ hm)) (some c)

theorem noUnescPipe_append (a : Str) : ∀ (b : Str) (prev : Option Char),
    noUnescPipe prev a = true → noUnescPipe (lastPrev prev a) b = true →
      noUnescPipe prev (a ++ b) = true := by
  induction a with
  | nil =>
    intro b prev _ hb
    simpa [lastPrev] using hb
  | cons c a' ih =>
    intro b prev ha hb
    rw [noUnescPipe] at ha
    by_cases hcond : c = '|' ∧ prev ≠ some '\\'
    · rw [if_pos hcond] at ha
      cases ha
    · rw [if_neg hcond] at ha
      rw [List.cons_append, noUnescPipe, if_neg hcond]
      exact ih b (some c) ha (by rwa [lastPrev_cons] at hb)

theorem noUnescPipe_escF (s : Str) : ∀ prev, noUnescPipe prev (escF s) = true := by
  induction s with
  | nil => intro prev; rfl
  | cons c t ih =>
    intro prev
    show noUnescPipe prev (esc1 c ++ escF t) = true
    by_cases hc : c = '|'
    · subst hc
      rw [show esc1 '|' = ['\\', '|'] from rfl]
      show noUnescPipe prev ('\\' :: '|' :: escF t) = true
      rw [noUnescPipe, if_neg (by rintro ⟨h, -⟩; cases h)]
      rw [noUnescPipe, if_neg (by rintro ⟨-, h⟩; exact h rfl)]
      exact ih (some '|')
    · rw [show esc1 c = [c] by simp [esc1, hc], List.singleton_append]
      rw [noUnescPipe, if_neg (by rintro ⟨rfl, -⟩; exact hc rfl)]
      exact ih (some c)

/-- A 5-cell markdown table row with pipe delimiters, in the exact shape
`render_markdown` emits. -/
def rowOf (c₁ c₂ c₃ c₄ c₅ : Str) : Str :=
  '|' :: (c₁ ++ ('|' :: (c₂ ++ ('|' :: (c₃ ++ ('|' :: (c₄ ++ ('|' :: (c₅ ++ ['|'])))))))))

/-- Tokenizing a well-formed 5-cell table row whose cells contain no
unescaped pipe and end in a space yields exactly the six slices the
parser expects. -/
theorem splitUP_row (x₁ x₂ x₃ x₄ x₅ : Str)
    (h₁ : noUnescPipe (some '|') (x₁ ++ [' ']) = true)
    (h₂ : noUnescPipe (some '|') (x₂ ++ [' ']) = true)
    (h₃ : noUnescPipe (some '|') (x₃ ++ [' ']) = true)
    (h₄ : noUnescPipe (some '|') (x₄ ++ [' ']) = true)
    (h₅ : noUnescPipe (some '|') (x₅ ++ [' ']) = true) :
    splitUP (rowOf (x₁ ++ [' ']) (x₂ ++ [' ']) (x₃ ++ [' ']) (x₄ ++ [' '])
        (x₅ ++ [' '])) =
      [[], x₁ ++ [' '], x₂ ++ [' '], x₃ ++ [' '], x₄ ++ [' '], x₅ ++ [' ']] := by
  unfold splitUP rowOf
  rw [splitUPGo_cut [] none (by simp) _]
  rw [splitUPGo_through _ (some '|') [] _ h₁, List.nil_append, lastPrev_concat]
  rw [splitUPGo_cut _ (some ' ') (by simp) _]
  rw [splitUPGo_through _ (some '|') [] _ h₂, List.nil_append, lastPrev_concat]
  rw [splitUPGo_cut _ (some ' ') (by simp) _]
  rw [splitUPGo_through _ (some '|') [] _ h₃, List.nil_append, lastPrev_concat]
  rw [splitUPGo_cut _ (some ' ') (by simp) _]
  rw [splitUPGo_through _ (some '|') [] _ h₄, List.nil_append, lastPrev_concat]
  rw [splitUPGo_cut _ (some ' ') (by simp) _]
  rw [splitUPGo_through _ (some '|') [] _ h₅, List.nil_append, lastPrev_concat]
  rw [splitUPGo_cut _ (some ' ') (by simp) _]
  rfl

/-! ## C1 support: heads and tails of trim-invariant strings -/

theorem trim_length_le (s : Str) : (trim s).length ≤ s.length := by
  unfold trim trimEnd trimStart
  calc ((s.dropWhile isWs).reverse.dropWhile isWs).reverse.length
      = ((s.dropWhile isWs).reverse.dropWhile isWs).length := List.length_reverse _
    _ ≤ (s.dropWhile isWs).reverse.length := (List.dropWhile_sublist _).length_le
    _ = (s.dropWhile isWs).length := List.length_reverse _
    _ ≤ s.length := (List.dropWhile_sublist _).length_le

theorem trim_eq_self_head {s : Str} (h : trim s = s) :
    ∀ a, s.head? = some a → isWs a = false := by
  intro a ha
  by_contra hws
  have hws' : isWs a = true := by rwa [Bool.not_eq_false] at hws
  cases s with
  | nil => cases ha
  | cons c t =>
    simp only [List.head?_cons, Option.some.injEq] at ha
    subst ha
    have := trim_cons_ws hws' t
    rw [h] at this
    have hlen := congrArg List.length this
    have := trim_length_le t
    simp only [List.length_cons] at hlen
    omega

theorem trim_eq_self_last {s : Str} (h : trim s = s) :
    ∀ a, s.getLast? = some a → isWs a = false := by
  intro a ha
  by_contra hws
  have hws' : isWs a = true := by rwa [Bool.not_eq_false] at hws
  rcases getLast?_eq_some_iff.mp ha with ⟨t, rfl⟩
  have := trim_concat_ws hws' t
  rw [h] at this
  have hlen := congrArg List.length this
  have := trim_length_le t
  simp only [List.length_append, List.length_cons] at hlen
  omega

theorem escF_head_not_ws {s : Str} (h : ∀ a, s.head? = some a → isWs a = false) :
    ∀ a, (escF s).head? = some a → isWs a = false := by
  intro a ha
  cases s with
  | nil => cases ha
  | cons c t =>
    have hc := h c rfl
    by_cases hcp : c = '|'
    · have : (escF (c :: t)).head? = some '\\' := by
        simp [escF, esc1, hcp]
      rw [this] at ha
      cases ha
      decide
    · have : (escF (c :: t)).head? = some c := by
        simp [escF, esc1, hcp]
      rw [this] at ha
      cases ha
      exact hc

theorem esc1_ne_nil (c : Char) : esc1 c ≠ [] := by
  unfold esc1
  by_cases hc : c = '|' <;> simp [hc]

theorem escF_last_not_ws {s : Str} (h : ∀ a, s.getLast? = some a → isWs a = false) :
    ∀ a, (escF s).getLast? = some a → isWs a = false := by
  intro a ha
  cases hlast : s.getLast? with
  | none =>
    cases s with
    | nil => cases ha
    | cons c t => simp [List.getLast?_eq_none_iff] at hlast
  | some b =>
    have hb := h b hlast
    rcases getLast?_eq_some_iff.mp hlast with ⟨t, rfl⟩
    rw [escF_append] at ha
    rcases List.exists_cons_of_ne_nil (esc1_ne_nil b) with ⟨d, ds, hds⟩
    rw [show escF [b] = esc1 b from by simp [escF], hds] at ha
    by_cases hbp : b = '|'
    · have : esc1 b = ['\\', '|'] := by simp [esc1, hbp]
      rw [this] at hds
      cases hds
      rw [show (escF t ++ ['\\', '|']) = (escF t ++ ['\\']) ++ ['|'] by simp] at ha
      rw [List.getLast?_concat] at ha
      cases ha
      decide
    · have : esc1 b = [b] := by simp [esc1, hbp]
      rw [this] at hds
      cases hds
      rw [List.getLast?_concat] at ha
      cases ha
      exact hb

/-! ## C1 support: recovery of one rendered table cell -/

/-- Trimming a padded cell whose payload is trim-invariant. -/
theorem trim_cell_plain {s : Str} (h : trim s = s) :
    trim (' ' :: (s ++ [' '])) = s := by
  rw [trim_pad, h]

/-- Trimming a padded backticked cell. -/
theorem trim_cell_tick (x : Str) :
    trim (' ' :: (('`' :: (x ++ ['`'])) ++ [' '])) = '`' :: (x ++ ['`']) := by
  rw [trim_pad]
  apply trim_eq_self_of_ends
  · intro c hc
    cases hc
    decide
  · intro c hc
    rw [show ('`' :: (x ++ ['`'])) = ('`' :: x) ++ ['`'] by simp,
      List.getLast?_concat] at hc
    cases hc
    decide

/-! ## C1 support: parsing one rendered table row -/

/-- Single-line, ASCII field content.  (The `\n`/`\r` freedom keeps the
field on one markdown line; ASCII keeps the parser's byte-position row
tokenization in agreement with char positions.) -/
@[reducible]
def cellBase (s : Str) : Prop :=
  ('\n' : Char) ∉ s ∧ ('\r' : Char) ∉ s ∧ ∀ c ∈ s, c.toNat < 128

/-- The side conditions on one layer entry under which its rendered
table row is recovered bitwise by the parser. -/
def layerOk (L : LayerDigest) : Prop :=
  L.created ≠ [] ∧ trim L.created = L.created ∧ ('|' : Char) ∉ L.created ∧
    cellBase L.created ∧
  ('`' : Char) ∉ L.command ∧ cellBase L.command ∧
  (∀ s, L.comment = some s → s ≠ [] ∧ trim s = s ∧ cellBase s) ∧
  L.digest ≠ [] ∧ trim L.digest = L.digest ∧ ('|' : Char) ∉ L.digest ∧
    ('`' : Char) ∉ L.digest ∧ cellBase L.digest

theorem renderRow_decomp (L : LayerDigest) :
    renderRow L =
      rowOf ((' ' :: L.created) ++ [' '])
        ((' ' :: '`' :: (escF L.command ++ ['`'])) ++ [' '])
        ((' ' :: escF (L.comment.getD [])) ++ [' '])
        ((' ' :: '`' :: (L.digest ++ ['`'])) ++ [' '])
        ((' ' :: boolStr L.is_empty) ++ [' ']) := by
  unfold renderRow rowOf
  rw [escPipes_eq_escF, escPipes_eq_escF]
  simp only [show "| ".data = ['|', ' '] from rfl,
    show " | `".data = [' ', '|', ' ', '`'] from rfl,
    show "` | ".data = ['`', ' ', '|', ' '] from rfl,
    show " |".data = [' ', '|'] from rfl]
  simp [List.append_assoc, List.cons_append, List.singleton_append]

theorem noUnesc_step {c : Char} (hc : ¬c = '|') (prev : Option Char) (rest : Str) :
    noUnescPipe prev (c :: rest) = noUnescPipe (some c) rest := by
  rw [noUnescPipe, if_neg (by rintro ⟨rfl, -⟩; exact hc rfl)]

/-- A cell of shape `' ' :: '`' :: (escaped ++ ['`'])` plus the trailing
pad has no unescaped pipe. -/
theorem noUnesc_tick_cell (x : Str) (prev : Option Char) :
    noUnescPipe prev ((' ' :: '`' :: (escF x ++ ['`'])) ++ [' ']) = true := by
  rw [show ((' ' :: '`' :: (escF x ++ ['`'])) ++ [' ']) =
      ' ' :: '`' :: (escF x ++ ['`', ' ']) by simp]
  rw [noUnesc_step (by decide), noUnesc_step (by decide)]
  exact noUnescPipe_append (escF x) ['`', ' '] (some '`') (noUnescPipe_escF x _)
    (noUnescPipe_of_no_pipe (by decide) _)

theorem noUnesc_esc_cell (x : Str) (prev : Option Char) :
    noUnescPipe prev ((' ' :: escF x) ++ [' ']) = true := by
  rw [show ((' ' :: escF x) ++ [' ']) = ' ' :: (escF x ++ [' ']) by simp]
  rw [noUnesc_step (by decide)]
  exact noUnescPipe_append (escF x) [' '] (some ' ') (noUnescPipe_escF x _)
    (noUnescPipe_of_no_pipe (by decide) _)

theorem noUnesc_plain_cell {x : Str} (h : ('|' : Char) ∉ x) (c : Char)
    (hc : ¬c = '|') (prev : Option Char) :
    noUnescPipe prev ((c :: x) ++ [' ']) = true := by
  apply noUnescPipe_of_no_pipe
  intro hmem
  rcases List.mem_append.mp hmem with hm | hm
  · rcases List.mem_cons.mp hm with hm' | hm'
    · exact hc hm'.symm
    · exact h hm'
  · simp at hm

theorem parseRow_renderRow (L : LayerDigest) (h : layerOk L) (acc : List LayerDigest) :
    parseRow (renderRow L) acc = acc ++ [L] := by
  obtain ⟨hcne, hctr, hcp, -, hcmdt, -, hcom, hdne, hdtr, hdp, hdt, -⟩ := h
  rw [renderRow_decomp]
  unfold parseRow
  rw [splitUP_row (' ' :: L.created) (' ' :: '`' :: (escF L.command ++ ['`']))
    (' ' :: escF (L.comment.getD [])) (' ' :: '`' :: (L.digest ++ ['`']))
    (' ' :: boolStr L.is_empty)
    (noUnesc_plain_cell hcp ' ' (by decide) _)
    (noUnesc_tick_cell L.command _)
    (noUnesc_esc_cell (L.comment.getD []) _)
    (by
      apply noUnescPipe_of_no_pipe
      intro hmem
      rcases List.mem_append.mp hmem with hm | hm
      · rcases List.mem_cons.mp hm with hm' | hm'
        · cases hm'
        · rcases List.mem_cons.mp hm' with hm'' | hm''
          · cases hm''
          · rcases List.mem_append.mp hm'' with hm₃ | hm₃
            · exact hdp hm₃
            · simp at hm₃
      · simp at hm)
    (by
      apply noUnescPipe_of_no_pipe
      intro hmem
      rcases List.mem_append.mp hmem with hm | hm
      · rcases List.mem_cons.mp hm with hm' | hm'
        · cases hm'
        · rw [boolStr] at hm'
          cases hb : L.is_empty <;> rw [hb] at hm' <;>
            exact absurd hm' (by decide)
      · simp at hm)]
  simp only [List.getD, List.get?, Option.getD_some, List.length_cons,
    List.length_nil, List.cons_append]
  rw [if_pos (by omega)]
  have hcell₁ : trim (' ' :: (L.created ++ [' '])) = L.created := trim_cell_plain hctr
  have hcell₂ : replaceL "\\|".data "|".data
      (replaceL "`".data []
        (trim (' ' :: '`' :: ((escF L.command ++ ['`']) ++ [' '])))) = L.command := by
    have ht := trim_cell_tick (escF L.command)
    simp only [List.cons_append] at ht
    rw [ht]
    rw [tick_removal_wrap (by
      intro hmem
      rcases mem_escF hmem with hm | hm
      · exact hcmdt hm
      · cases hm)]
    rw [unescL_eq, unescF_escF]
  have hcell₄ : replaceL "`".data []
      (trim (' ' :: '`' :: ((L.digest ++ ['`']) ++ [' ']))) = L.digest := by
    have ht := trim_cell_tick L.digest
    simp only [List.cons_append] at ht
    rw [ht]
    exact tick_removal_wrap hdt
  have hcell₅ : ∀ b : Bool,
      (decide (trim (' ' :: (boolStr b ++ [' '])) = "true".data)) = b := by
    intro b
    cases b <;> decide
  rw [hcell₁, hcell₂, hcell₄]
  cases hcm : L.comment with
  | none =>
    simp only [Option.getD_none]
    have hcell₃ : replaceL "\\|".data "|".data
        (trim (' ' :: (escF [] ++ [' ']))) = [] := by decide
    rw [hcell₃]
    rw [if_pos ⟨hcne, hdne⟩]
    rw [if_pos rfl]
    rw [hcell₅ L.is_empty]
    rw [← hcm]
  | some s =>
    obtain ⟨hsne, hstr, -⟩ := hcom s hcm
    simp only [Option.getD_some]
    have hcell₃ : replaceL "\\|".data "|".data
        (trim (' ' :: (escF s ++ [' ']))) = s := by
      rw [trim_pad]
      rw [trim_eq_self_of_ends (escF_head_not_ws (trim_eq_self_head hstr))
        (escF_last_not_ws (trim_eq_self_last hstr))]
      rw [unescL_eq, unescF_escF]
    rw [hcell₃]
    rw [if_pos ⟨hcne, hdne⟩]
    rw [if_neg hsne]
    rw [hcell₅ L.is_empty]
    rw [← hcm]

/-! ## C1 support: line safety (no `\n`, no `\r`) -/

/-- The string contains neither `\n` nor `\r`, so it stays on one
markdown line and its line survives `lines()` unchanged. -/
def noNL (s : Str) : Bool := s.all (fun c => !(c = '\n') && !(c = '\r'))

theorem noNL_append {a b : Str} :
    noNL (a ++ b) = (noNL a && noNL b) := by
  simp [noNL, List.all_append]

theorem noNL_cons {c : Char} {s : Str} :
    noNL (c :: s) = ((!(c = '\n') && !(c = '\r')) && noNL s) := by
  simp [noNL, List.all_cons]

theorem noNL_of_cellBase {s : Str} (h : cellBase s) : noNL s = true := by
  apply List.all_eq_true.mpr
  intro c hc
  have h₁ : ¬c = '\n' := fun e => h.1 (e ▸ hc)
  have h₂ : ¬c = '\r' := fun e => h.2.1 (e ▸ hc)
  simp [h₁, h₂]

theorem noNL_escF {s : Str} (h : noNL s = true) : noNL (escF s) = true := by
  apply List.all_eq_true.mpr
  intro c hc
  rcases mem_escF hc with hm | hm
  · exact List.all_eq_true.mp h c hm
  · subst hm
    decide

theorem noNL_joinSep {sep : Str} (hsep : noNL sep = true) :
    ∀ {ts : List Str}, (∀ t ∈ ts, noNL t = true) →
      noNL (joinSep sep ts) = true
  | [], _ => by rw [joinSep]; rfl
  | [t], h => by
    rw [joinSep]
    exact h t (by simp)
  | t :: t₂ :: ts, h => by
    rw [joinSep, noNL_append, noNL_append]
    rw [h t (by simp), hsep,
      noNL_joinSep hsep (fun x hx => h x (List.mem_cons_of_mem _ hx))]
    rfl

theorem noNL_boolStr (b : Bool) : noNL (boolStr b) = true := by
  cases b <;> decide

/-- `noNL` delivers the two side conditions `linesOf_unlines` needs of a
line. -/
theorem noNL_safe {l : Str} (h : noNL l = true) :
    ('\n' : Char) ∉ l ∧ l.getLast? ≠ some '\r' := by
  refine ⟨fun hm => ?_, fun hc => ?_⟩
  · have := List.all_eq_true.mp h _ hm
    simp at this
  · obtain ⟨t, rfl⟩ := getLast?_eq_some_iff.mp hc
    have := List.all_eq_true.mp h '\r' (by simp)
    simp at this

/-! ## C1 support: stepping the parser over section-neutral lines -/

/-- The line triggers none of the multi-line branches of the
`parse_markdown` loop: processing it consumes exactly one line and
leaves the accumulated layer list unchanged (it may update basic-info
fields). -/
@[reducible]
def simpleLine (l : Str) : Prop :=
  trim l ≠ "### Environment Variables".data ∧
  trim l ≠ "### Command".data ∧
  trim l ≠ "### Entrypoint".data ∧
  "### Working Directory".data.isPrefixOf (trim l) = false ∧
  trim l ≠ "### Exposed Ports".data ∧
  trim l ≠ "### Labels".data ∧
  trim l ≠ "## Layer History".data

/-- The parser walks through `sec` into the rest of the input without
touching the accumulated layer list (given fuel covering the whole
input, and leaving fuel covering the rest). -/
def SecOK (sec : List Str) : Prop :=
  ∀ (rest : List Str) (st : PState) (fuel : Nat),
    sec.length + rest.length ≤ fuel →
    ∃ st' fuel', rest.length ≤ fuel' ∧
      parseGo fuel (sec ++ rest) st = parseGo fuel' rest st' ∧
      st'.layers = st.layers

theorem secOK_nil : SecOK [] := by
  intro rest st fuel h
  exact ⟨st, fuel, by simpa using h, rfl, rfl⟩

theorem secOK_append {s₁ s₂ : List Str} (h₁ : SecOK s₁) (h₂ : SecOK s₂) :
    SecOK (s₁ ++ s₂) := by
  intro rest st fuel hlen
  obtain ⟨st', fuel', hle, heq, hlay⟩ := h₁ (s₂ ++ rest) st fuel
    (by simp [List.length_append] at hlen ⊢; omega)
  obtain ⟨st'', fuel'', hle', heq', hlay'⟩ := h₂ rest st' fuel'
    (by simp [List.length_append] at hle; omega)
  exact ⟨st'', fuel'', hle', by rw [List.append_assoc, heq, heq'],
    by rw [hlay', hlay]⟩

theorem parseStep_simple (l : Str) (h : simpleLine l) (rest : List Str)
    (st : PState) :
    (parseStep l rest st).1 = rest ∧
      (parseStep l rest st).2.layers = st.layers := by
  obtain ⟨h₁, h₂, h₃, h₄, h₅, h₆, h₇⟩ := h
  unfold parseStep
  dsimp only
  by_cases hc₁ : "# Image: ".data.isPrefixOf (trim l) = true
  · rw [if_pos hc₁]
    exact ⟨rfl, rfl⟩
  rw [if_neg hc₁]
  by_cases hc₂ : "- **Name**: ".data.isPrefixOf (trim l) = true
  · rw [if_pos hc₂]
    exact ⟨rfl, rfl⟩
  rw [if_neg hc₂]
  by_cases hc₃ : "- **ID**: `".data.isPrefixOf (trim l) = true
  · rw [if_pos hc₃]
    exact ⟨rfl, rfl⟩
  rw [if_neg hc₃]
  by_cases hc₄ : "- **Tags**: ".data.isPrefixOf (trim l) = true
  · rw [if_pos hc₄]
    exact ⟨rfl, rfl⟩
  rw [if_neg hc₄]
  by_cases hc₅ : "- **Created**: ".data.isPrefixOf (trim l) = true
  · rw [if_pos hc₅]
    exact ⟨rfl, rfl⟩
  rw [if_neg hc₅]
  by_cases hc₆ : "- **Architecture**: ".data.isPrefixOf (trim l) = true
  · rw [if_pos hc₆]
    exact ⟨rfl, rfl⟩
  rw [if_neg hc₆]
  by_cases hc₇ : "- **OS**: ".data.isPrefixOf (trim l) = true
  · rw [if_pos hc₇]
    exact ⟨rfl, rfl⟩
  rw [if_neg hc₇]
  rw [if_neg h₁, if_neg h₂, if_neg h₃]
  rw [if_neg (show ¬("### Working Directory".data.isPrefixOf (trim l) = true)
    from fun hx => by rw [h₄] at hx; exact Bool.noConfusion hx)]
  rw [if_neg h₅, if_neg h₆, if_neg h₇]
  exact ⟨rfl, rfl⟩

theorem parseGo_cons (fuel : Nat) (l : Str) (rest : List Str) (st : PState) :
    parseGo (fuel + 1) (l :: rest) st =
      parseGo fuel (parseStep l rest st).1 (parseStep l rest st).2 := by
  rfl

theorem parseGo_simple_step (l : Str) (h : simpleLine l) : SecOK [l] := by
  intro rest st fuel hlen
  simp only [List.length_cons, List.length_nil] at hlen
  cases fuel with
  | zero => omega
  | succ fuel₀ =>
    obtain ⟨h₁, h₂⟩ := parseStep_simple l h rest st
    refine ⟨(parseStep l rest st).2, fuel₀, by omega, ?_, h₂⟩
    rw [List.singleton_append, parseGo_cons, h₁]

theorem secOK_of_simples (sec : List Str) (h : ∀ l ∈ sec, simpleLine l) :
    SecOK sec := by
  induction sec with
  | nil => exact secOK_nil
  | cons l t ih =>
    have hlt : l :: t = [l] ++ t := rfl
    rw [hlt]
    exact secOK_append (parseGo_simple_step l (h l (by simp)))
      (ih fun x hx => h x (List.mem_cons_of_mem _ hx))

/-! ## C1 support: the multi-line section branches on rendered input -/

theorem takeWhile_cut {α : Type} (p : α → Bool) :
    ∀ (xs : List α), (∀ x ∈ xs, p x = true) →
      ∀ {y : α}, p y = false → ∀ (t : List α),
        (xs ++ y :: t).takeWhile p = xs
  | [], _, y, hy, t => by
    rw [List.nil_append, List.takeWhile_cons, if_neg (by rw [hy]; exact Bool.noConfusion)]
  | x :: xs, h, y, hy, t => by
    rw [List.cons_append, List.takeWhile_cons, if_pos (h x (by simp))]
    rw [takeWhile_cut p xs (fun a ha => h a (List.mem_cons_of_mem _ ha)) hy t]

theorem dropWhile_cut {α : Type} (p : α → Bool) :
    ∀ (xs : List α), (∀ x ∈ xs, p x = true) →
      ∀ {y : α}, p y = false → ∀ (t : List α),
        (xs ++ y :: t).dropWhile p = y :: t
  | [], _, y, hy, t => by
    rw [List.nil_append, List.dropWhile_cons, if_neg (by rw [hy]; exact Bool.noConfusion)]
  | x :: xs, h, y, hy, t => by
    rw [List.cons_append, List.dropWhile_cons, if_pos (h x (by simp))]
    exact dropWhile_cut p xs (fun a ha => h a (List.mem_cons_of_mem _ ha)) hy t

theorem parseStep_envHdr (rest : List Str) (st : PState) :
    parseStep "### Environment Variables".data rest st = stepEnv rest st := by
  unfold parseStep
  dsimp only
  rw [if_neg (by decide), if_neg (by decide), if_neg (by decide), if_neg (by decide),
    if_neg (by decide), if_neg (by decide), if_neg (by decide), if_pos (by decide)]

theorem parseStep_cmdHdr (rest : List Str) (st : PState) :
    parseStep "### Command".data rest st = stepCmd rest st := by
  unfold parseStep
  dsimp only
  rw [if_neg (by decide), if_neg (by decide), if_neg (by decide), if_neg (by decide),
    if_neg (by decide), if_neg (by decide), if_neg (by decide), if_neg (by decide),
    if_pos (by decide)]

theorem parseStep_entryHdr (rest : List Str) (st : PState) :
    parseStep "### Entrypoint".data rest st = stepEntry rest st := by
  unfold parseStep
  dsimp only
  rw [if_neg (by decide), if_neg (by decide), if_neg (by decide), if_neg (by decide),
    if_neg (by decide), if_neg (by decide), if_neg (by decide), if_neg (by decide),
    if_neg (by decide), if_pos (by decide)]

theorem parseStep_wdHdr (rest : List Str) (st : PState) :
    parseStep "### Working Directory".data rest st = stepWd rest st := by
  unfold parseStep
  dsimp only
  rw [if_neg (by decide), if_neg (by decide), if_neg (by decide), if_neg (by decide),
    if_neg (by decide), if_neg (by decide), if_neg (by decide), if_neg (by decide),
    if_neg (by decide), if_neg (by decide), if_pos (by decide)]

theorem parseStep_portsHdr (rest : List Str) (st : PState) :
    parseStep "### Exposed Ports".data rest st = stepPorts rest st := by
  unfold parseStep
  dsimp only
  rw [if_neg (by decide), if_neg (by decide), if_neg (by decide), if_neg (by decide),
    if_neg (by decide), if_neg (by decide), if_neg (by decide), if_neg (by decide),
    if_neg (by decide), if_neg (by decide), if_neg (by decide), if_pos (by decide)]

theorem parseStep_labelsHdr (rest : List Str) (st : PState) :
    parseStep "### Labels".data rest st = stepLabels rest st := by
  unfold parseStep
  dsimp only
  rw [if_neg (by decide), if_neg (by decide), if_neg (by decide), if_neg (by decide),
    if_neg (by decide), if_neg (by decide), if_neg (by decide), if_neg (by decide),
    if_neg (by decide), if_neg (by decide), if_neg (by decide), if_neg (by decide),
    if_pos (by decide)]

theorem parseStep_layersHdr (rest : List Str) (st : PState) :
    parseStep "## Layer History".data rest st = stepLayers rest st := by
  unfold parseStep
  dsimp only
  rw [if_neg (by decide), if_neg (by decide), if_neg (by decide), if_neg (by decide),
    if_neg (by decide), if_neg (by decide), if_neg (by decide), if_neg (by decide),
    if_neg (by decide), if_neg (by decide), if_neg (by decide), if_neg (by decide),
    if_neg (by decide), if_pos (by decide)]

theorem stepEnv_render (rest : List Str) (st : PState) :
    stepEnv ([] :: "```".data :: rest) st =
      (rest, { st with cc := { st.cc with
          environment_variables := st.cc.environment_variables ++ [] } }) := by
  unfold stepEnv
  dsimp only
  rw [List.takeWhile_cons, if_neg (by decide), List.dropWhile_cons,
    if_neg (by decide)]
  rfl

theorem stepCmd_render (rest : List Str) (st : PState) :
    stepCmd ([] :: "```".data :: rest) st = (rest, st) := by
  unfold stepCmd
  dsimp only
  rw [if_neg (by decide)]

theorem stepEntry_render (rest : List Str) (st : PState) :
    stepEntry ([] :: "```".data :: rest) st = (rest, st) := by
  unfold stepEntry
  dsimp only
  rw [if_neg (by decide)]

theorem stepWd_render (w : Str) (rest : List Str) (st : PState) :
    stepWd ([] :: w :: rest) st =
      (rest, if replaceL "`".data [] (trim w) ≠ [] then
          { st with cc := { st.cc with
              working_directory := replaceL "`".data [] (trim w) } }
        else st) := by
  unfold stepWd
  dsimp only

theorem secOK_env3 : SecOK ["### Environment Variables".data, [], "```".data] := by
  intro rest st fuel hlen
  simp only [List.length_cons, List.length_nil] at hlen
  cases fuel with
  | zero => omega
  | succ f =>
    refine ⟨{ st with cc := { st.cc with
        environment_variables := st.cc.environment_variables ++ [] } }, f,
      by omega, ?_, rfl⟩
    have hgo : parseGo (f + 1)
        (["### Environment Variables".data, [], "```".data] ++ rest) st =
        parseGo f
          (parseStep "### Environment Variables".data ([] :: "```".data :: rest) st).1
          (parseStep "### Environment Variables".data ([] :: "```".data :: rest) st).2 :=
      parseGo_cons f _ _ st
    rw [hgo, parseStep_envHdr, stepEnv_render]

theorem secOK_cmd3 : SecOK ["### Command".data, [], "```".data] := by
  intro rest st fuel hlen
  simp only [List.length_cons, List.length_nil] at hlen
  cases fuel with
  | zero => omega
  | succ f =>
    refine ⟨st, f, by omega, ?_, rfl⟩
    have hgo : parseGo (f + 1)
        (["### Command".data, [], "```".data] ++ rest) st =
        parseGo f
          (parseStep "### Command".data ([] :: "```".data :: rest) st).1
          (parseStep "### Command".data ([] :: "```".data :: rest) st).2 :=
      parseGo_cons f _ _ st
    rw [hgo, parseStep_cmdHdr, stepCmd_render]

theorem secOK_entry3 : SecOK ["### Entrypoint".data, [], "```".data] := by
  intro rest st fuel hlen
  simp only [List.length_cons, List.length_nil] at hlen
  cases fuel with
  | zero => omega
  | succ f =>
    refine ⟨st, f, by omega, ?_, rfl⟩
    have hgo : parseGo (f + 1)
        (["### Entrypoint".data, [], "```".data] ++ rest) st =
        parseGo f
          (parseStep "### Entrypoint".data ([] :: "```".data :: rest) st).1
          (parseStep "### Entrypoint".data ([] :: "```".data :: rest) st).2 :=
      parseGo_cons f _ _ st
    rw [hgo, parseStep_entryHdr, stepEntry_render]

theorem secOK_wd3 (w : Str) : SecOK ["### Working Directory".data, [], w] := by
  intro rest st fuel hlen
  simp only [List.length_cons, List.length_nil] at hlen
  cases fuel with
  | zero => omega
  | succ f =>
    refine ⟨(stepWd ([] :: w :: rest) st).2, f, by omega, ?_, ?_⟩
    · have hgo : parseGo (f + 1)
          (["### Working Directory".data, [], w] ++ rest) st =
          parseGo f
            (parseStep "### Working Directory".data ([] :: w :: rest) st).1
            (parseStep "### Working Directory".data ([] :: w :: rest) st).2 :=
        parseGo_cons f _ _ st
      rw [hgo, parseStep_wdHdr]
      have h1 : (stepWd ([] :: w :: rest) st).1 = rest := by
        rw [stepWd_render]
      rw [h1]
    · rw [stepWd_render]
      dsimp only
      split
      · rfl
      · rfl

theorem isPortLine_render (p : Str) :
    isPortLine ("- `".data ++ p ++ "`".data) = true := by
  have hsh : "- `".data ++ p ++ "`".data = '-' :: ' ' :: '`' :: (p ++ ['`']) := by
    rw [show "- `".data = ['-', ' ', '`'] from rfl, show "`".data = ['`'] from rfl]
    simp
  rw [isPortLine, hsh]
  have htr : trim ('-' :: ' ' :: '`' :: (p ++ ['`'])) =
      '-' :: ' ' :: '`' :: (p ++ ['`']) := by
    apply trim_eq_self_of_ends
    · intro c hc
      cases hc
      decide
    · intro c hc
      rw [show ('-' :: ' ' :: '`' :: (p ++ ['`'])) =
          ('-' :: ' ' :: '`' :: p) ++ ['`'] by simp, List.getLast?_concat] at hc
      cases hc
      decide
  rw [htr]
  rw [show "- `".data = ['-', ' ', '`'] from rfl]
  simp [List.isPrefixOf]

theorem rowOf_concat (c₁ c₂ c₃ c₄ c₅ : Str) :
    rowOf c₁ c₂ c₃ c₄ c₅ =
      ('|' :: (c₁ ++ '|' :: (c₂ ++ '|' :: (c₃ ++ '|' :: (c₄ ++ '|' :: c₅))))) ++
        ['|'] := by
  simp [rowOf]

theorem isRowLine_rowOf (c₁ c₂ c₃ c₄ c₅ : Str) :
    isRowLine (rowOf c₁ c₂ c₃ c₄ c₅) = true := by
  have htr : trim (rowOf c₁ c₂ c₃ c₄ c₅) = rowOf c₁ c₂ c₃ c₄ c₅ := by
    apply trim_eq_self_of_ends
    · intro c hc
      rw [rowOf] at hc
      cases hc
      decide
    · intro c hc
      rw [rowOf_concat, List.getLast?_concat] at hc
      cases hc
      decide
  rw [isRowLine, htr, rowOf]
  rw [show "|".data = ['|'] from rfl]
  simp [List.isPrefixOf]

theorem isLabelRowLine_render (k v : Str) :
    isLabelRowLine ("| `".data ++ k ++ "` | `".data ++ v ++ "` |".data) = true := by
  have hsh : "| `".data ++ k ++ "` | `".data ++ v ++ "` |".data
      = '|' :: ' ' :: '`' ::
          (k ++ '`' :: ' ' :: '|' :: ' ' :: '`' :: (v ++ ['`', ' ', '|'])) := by
    rw [show "| `".data = ['|', ' ', '`'] from rfl,
      show "` | `".data = ['`', ' ', '|', ' ', '`'] from rfl,
      show "` |".data = ['`', ' ', '|'] from rfl]
    simp
  rw [isLabelRowLine, hsh]
  have htr : trim ('|' :: ' ' :: '`' ::
        (k ++ '`' :: ' ' :: '|' :: ' ' :: '`' :: (v ++ ['`', ' ', '|']))) =
      '|' :: ' ' :: '`' ::
        (k ++ '`' :: ' ' :: '|' :: ' ' :: '`' :: (v ++ ['`', ' ', '|'])) := by
    apply trim_eq_self_of_ends
    · intro c hc
      cases hc
      decide
    · intro c hc
      rw [show ('|' :: ' ' :: '`' ::
            (k ++ '`' :: ' ' :: '|' :: ' ' :: '`' :: (v ++ ['`', ' ', '|']))) =
          ('|' :: ' ' :: '`' ::
            (k ++ '`' :: ' ' :: '|' :: ' ' :: '`' :: (v ++ ['`', ' ']))) ++ ['|']
          by simp, List.getLast?_concat] at hc
      cases hc
      decide
  rw [htr]
  rw [show "|".data = ['|'] from rfl,
    show "| Key |".data = ['|', ' ', 'K', 'e', 'y', ' ', '|'] from rfl]
  simp [List.isPrefixOf]

theorem secOK_ports (ports : List Str) :
    SecOK (["### Exposed Ports".data, []] ++
      ports.map (fun p => "- `".data ++ p ++ "`".data) ++ [[]]) := by
  intro rest st fuel hlen
  simp only [List.length_append, List.length_cons, List.length_nil,
    List.length_map] at hlen
  cases fuel with
  | zero => omega
  | succ f =>
    have hall : ∀ x ∈ ports.map (fun p => "- `".data ++ p ++ "`".data),
        isPortLine x = true := by
      intro x hx
      obtain ⟨p, _, rfl⟩ := List.mem_map.mp hx
      exact isPortLine_render p
    have hstep : stepPorts
        ([] :: (ports.map (fun p => "- `".data ++ p ++ "`".data) ++ [] :: rest)) st
        = ([] :: rest, { st with cc := { st.cc with
            exposed_ports := st.cc.exposed_ports ++
              ((ports.map (fun p => "- `".data ++ p ++ "`".data)).map (fun l =>
                replaceL "`".data [] (replaceL "- `".data [] (trim l)))) } }) := by
      unfold stepPorts
      dsimp only
      rw [takeWhile_cut isPortLine _ hall (by decide) rest,
        dropWhile_cut isPortLine _ hall (by decide) rest]
    obtain ⟨st₃, f₃, hle₃, heq₃, hlay₃⟩ :=
      parseGo_simple_step [] (by decide) rest
        { st with cc := { st.cc with
            exposed_ports := st.cc.exposed_ports ++
              ((ports.map (fun p => "- `".data ++ p ++ "`".data)).map (fun l =>
                replaceL "`".data [] (replaceL "- `".data [] (trim l)))) } } f
        (by simp only [List.length_cons, List.length_nil]; omega)
    rw [List.singleton_append] at heq₃
    refine ⟨st₃, f₃, hle₃, ?_, hlay₃⟩
    have harr : (["### Exposed Ports".data, []] ++
        ports.map (fun p => "- `".data ++ p ++ "`".data) ++ [[]]) ++ rest
        = "### Exposed Ports".data ::
            ([] :: (ports.map (fun p => "- `".data ++ p ++ "`".data) ++
              [] :: rest)) := by
      simp
    rw [harr, parseGo_cons, parseStep_portsHdr, hstep]
    exact heq₃

theorem secOK_labels (entries : List (Str × Str)) :
    SecOK (["### Labels".data, [], "| Key | Value |".data,
      "|-----|-------|".data] ++
      entries.map (fun kv =>
        "| `".data ++ kv.1 ++ "` | `".data ++ kv.2 ++ "` |".data) ++ [[]]) := by
  intro rest st fuel hlen
  simp only [List.length_append, List.length_cons, List.length_nil,
    List.length_map] at hlen
  cases fuel with
  | zero => omega
  | succ f =>
    have hall : ∀ x ∈ "|-----|-------|".data ::
        entries.map (fun kv =>
          "| `".data ++ kv.1 ++ "` | `".data ++ kv.2 ++ "` |".data),
        isLabelRowLine x = true := by
      intro x hx
      rcases List.mem_cons.mp hx with rfl | hx
      · decide
      · obtain ⟨kv, _, rfl⟩ := List.mem_map.mp hx
        exact isLabelRowLine_render kv.1 kv.2
    have hstep : stepLabels
        ([] :: "| Key | Value |".data ::
          (("|-----|-------|".data ::
            entries.map (fun kv =>
              "| `".data ++ kv.1 ++ "` | `".data ++ kv.2 ++ "` |".data)) ++
            [] :: rest)) st
        = ([] :: rest, { st with cc := { st.cc with
            labels := (("|-----|-------|".data ::
              entries.map (fun kv =>
                "| `".data ++ kv.1 ++ "` | `".data ++ kv.2 ++ "` |".data))).foldl
                (fun m l => parseLabelRow l m) st.cc.labels } }) := by
      unfold stepLabels
      dsimp only
      rw [takeWhile_cut isLabelRowLine _ hall (by decide) rest,
        dropWhile_cut isLabelRowLine _ hall (by decide) rest]
    obtain ⟨st₃, f₃, hle₃, heq₃, hlay₃⟩ :=
      parseGo_simple_step [] (by decide) rest
        { st with cc := { st.cc with
            labels := (("|-----|-------|".data ::
              entries.map (fun kv =>
                "| `".data ++ kv.1 ++ "` | `".data ++ kv.2 ++ "` |".data))).foldl
                (fun m l => parseLabelRow l m) st.cc.labels } } f
        (by simp only [List.length_cons, List.length_nil]; omega)
    rw [List.singleton_append] at heq₃
    refine ⟨st₃, f₃, hle₃, ?_, hlay₃⟩
    have harr : (["### Labels".data, [], "| Key | Value |".data,
        "|-----|-------|".data] ++
        entries.map (fun kv =>
          "| `".data ++ kv.1 ++ "` | `".data ++ kv.2 ++ "` |".data) ++ [[]]) ++ rest
        = "### Labels".data ::
            ([] :: "| Key | Value |".data ::
              (("|-----|-------|".data ::
                entries.map (fun kv =>
                  "| `".data ++ kv.1 ++ "` | `".data ++ kv.2 ++ "` |".data)) ++
                [] :: rest)) := by
      simp
    rw [harr, parseGo_cons, parseStep_labelsHdr, hstep]
    exact heq₃

theorem foldl_parseRow (ls : List LayerDigest) (h : ∀ L ∈ ls, layerOk L) :
    ∀ acc, (ls.map renderRow).foldl (fun acc l => parseRow l acc) acc =
      acc ++ ls := by
  induction ls with
  | nil =>
    intro acc
    simp
  | cons L t ih =>
    intro acc
    rw [List.map_cons, List.foldl_cons]
    rw [parseRow_renderRow L (h L (by simp)) acc]
    rw [ih (fun x hx => h x (List.mem_cons_of_mem _ hx)) (acc ++ [L])]
    simp

theorem parseGo_layerSec (ls : List LayerDigest) (hls : ∀ L ∈ ls, layerOk L)
    (st : PState) (fuel : Nat) (hf : (renderLayerLines ls).length ≤ fuel) :
    (parseGo fuel (renderLayerLines ls) st).layers = st.layers ++ ls := by
  rcases eq_or_ne ls [] with rfl | hne
  · unfold renderLayerLines
    rw [if_neg (by simp)]
    simp only [parseGo]
    simp
  · unfold renderLayerLines at hf ⊢
    rw [if_pos hne] at hf ⊢
    simp only [List.length_append, List.length_cons, List.length_nil,
      List.length_map] at hf
    have hall : ∀ x ∈ ls.map renderRow, isRowLine x = true := by
      intro x hx
      obtain ⟨L, _, rfl⟩ := List.mem_map.mp hx
      rw [renderRow_decomp]
      exact isRowLine_rowOf _ _ _ _ _
    cases fuel with
    | zero => omega
    | succ f =>
      cases f with
      | zero => omega
      | succ f₀ =>
        have hstep : stepLayers
            ([] :: "| Created | Command | Comment | Digest | Empty |".data ::
              "|---------|---------|---------|--------|-------|".data ::
              (ls.map renderRow ++ [[]])) st
            = ([[]], { st with layers :=
                ((ls.map renderRow).foldl (fun acc l => parseRow l acc) st.layers) }) := by
          unfold stepLayers
          dsimp only
          rw [skipHdr, if_pos (by decide)]
          rw [skipHdr, if_pos (by decide)]
          rw [takeWhile_cut isRowLine _ hall (by decide) [],
            dropWhile_cut isRowLine _ hall (by decide) []]
        have harr : ["## Layer History".data, [],
            "| Created | Command | Comment | Digest | Empty |".data,
            "|---------|---------|---------|--------|-------|".data] ++
              ls.map renderRow ++ [[]]
            = "## Layer History".data ::
                ([] :: "| Created | Command | Comment | Digest | Empty |".data ::
                  "|---------|---------|---------|--------|-------|".data ::
                  (ls.map renderRow ++ [[]])) := by
          simp
        rw [harr, parseGo_cons, parseStep_layersHdr, hstep]
        dsimp only
        rw [parseGo_cons]
        obtain ⟨hp1, hp2⟩ := parseStep_simple [] (by decide) []
          { st with layers :=
              (ls.map renderRow).foldl (fun acc l => parseRow l acc) st.layers }
        rw [hp1]
        simp only [parseGo]
        rw [hp2]
        exact foldl_parseRow ls hls st.layers

/-! ## C1 support: which rendered lines are section-neutral -/

/-- Every section-trigger line of the parser starts with `##`; a line
whose trimmed form does not is section-neutral. -/
theorem simpleLine_of_not_hh {l : Str}
    (h : "##".data.isPrefixOf (trim l) = false) : simpleLine l := by
  have habs : ∀ pre : Str, "##".data.isPrefixOf pre = true →
      trim l = pre → False := by
    intro pre hpre he
    rw [he, hpre] at h
    exact Bool.noConfusion h
  refine ⟨fun he => habs _ (by decide) he, fun he => habs _ (by decide) he,
    fun he => habs _ (by decide) he, ?_, fun he => habs _ (by decide) he,
    fun he => habs _ (by decide) he, fun he => habs _ (by decide) he⟩
  cases hb : "### Working Directory".data.isPrefixOf (trim l) with
  | false => rfl
  | true =>
    exfalso
    obtain ⟨t, ht⟩ := (isPrefixOf_iff_exists _ _).mp hb
    have htrue : "##".data.isPrefixOf (trim l) = true := by
      apply (isPrefixOf_iff_exists _ _).mpr
      refine ⟨"# Working Directory".data ++ t, ?_⟩
      rw [ht, show "### Working Directory".data =
        "##".data ++ "# Working Directory".data from by decide]
      simp
    rw [htrue] at h
    exact Bool.noConfusion h

theorem simpleLine_of_head {l : Str} (c : Char)
    (hc : (trim l).head? = some c) (h : c ≠ '#') : simpleLine l := by
  apply simpleLine_of_not_hh
  cases hb : "##".data.isPrefixOf (trim l) with
  | false => rfl
  | true =>
    exfalso
    obtain ⟨t, ht⟩ := (isPrefixOf_iff_exists _ _).mp hb
    rw [ht, show "##".data ++ t = '#' :: '#' :: t from by simp] at hc
    cases hc
    exact h rfl

theorem simpleLine_hash_space {l r : Str} (ht : trim l = '#' :: ' ' :: r) :
    simpleLine l := by
  apply simpleLine_of_not_hh
  cases hb : "##".data.isPrefixOf (trim l) with
  | false => rfl
  | true =>
    exfalso
    obtain ⟨t, ht'⟩ := (isPrefixOf_iff_exists _ _).mp hb
    rw [ht, show "##".data ++ t = '#' :: '#' :: t from by simp] at ht'
    injection ht' with h₁ h₂
    injection h₂ with h₃ h₄
    exact absurd h₃ (by decide)

theorem trim_cons_head (c : Char) (hcw : isWs c = false) (s : Str) :
    ∃ r, trim (c :: s) = c :: r := by
  unfold trim
  rw [trimStart_cons_not_ws hcw]
  unfold trimEnd
  rw [show (c :: s).reverse = s.reverse ++ [c] by simp]
  rw [List.dropWhile_append]
  by_cases he : (s.reverse.dropWhile isWs).isEmpty = true
  · rw [if_pos he]
    refine ⟨[], ?_⟩
    rw [show List.dropWhile isWs [c] = [c] from by
      rw [List.dropWhile_cons, if_neg (by rw [hcw]; exact Bool.noConfusion)]]
    rfl
  · rw [if_neg he]
    exact ⟨(s.reverse.dropWhile isWs).reverse, by simp⟩

theorem trim_anchor₃ (c₁ c₂ c₃ : Char) (h₁ : isWs c₁ = false)
    (h₃ : isWs c₃ = false) (s : Str) :
    ∃ r, trim (c₁ :: c₂ :: c₃ :: s) = c₁ :: c₂ :: c₃ :: r := by
  unfold trim
  rw [trimStart_cons_not_ws h₁]
  unfold trimEnd
  rw [show (c₁ :: c₂ :: c₃ :: s).reverse = s.reverse ++ [c₃, c₂, c₁] by simp]
  rw [List.dropWhile_append]
  have hc : List.dropWhile isWs [c₃, c₂, c₁] = [c₃, c₂, c₁] := by
    rw [List.dropWhile_cons, if_neg (by rw [h₃]; exact Bool.noConfusion)]
  by_cases he : (s.reverse.dropWhile isWs).isEmpty = true
  · rw [if_pos he, hc]
    exact ⟨[], by simp⟩
  · rw [if_neg he]
    exact ⟨(s.reverse.dropWhile isWs).reverse, by simp⟩

/-- Lines that begin with `-` (the basic-info bullets, after trimming)
are section-neutral. -/
theorem simpleLine_dash (s : Str) : simpleLine ('-' :: s) := by
  obtain ⟨r, hr⟩ := trim_cons_head '-' (by decide) s
  exact simpleLine_of_head '-' (by rw [hr]; rfl) (by decide)

/-- The `# Image: …` header line is section-neutral. -/
theorem simpleLine_image (s : Str) : simpleLine ('#' :: ' ' :: 'I' :: s) := by
  obtain ⟨r, hr⟩ := trim_anchor₃ '#' ' ' 'I' (by decide) (by decide) s
  exact simpleLine_hash_space hr

/-! ## C1 support: all rendered lines are newline-free -/

theorem noNL_app₂ {a b : Str} (ha : noNL a = true) (hb : noNL b = true) :
    noNL (a ++ b) = true := by
  rw [noNL_append, ha, hb]
  rfl

theorem noNL_char {c : Char} (h₁ : ¬c = '\n') (h₂ : ¬c = '\r') {s : Str}
    (h : noNL s = true) : noNL (c :: s) = true := by
  rw [noNL_cons, h]
  simp [h₁, h₂]

theorem noNL_rowOf {c₁ c₂ c₃ c₄ c₅ : Str} (h₁ : noNL c₁ = true)
    (h₂ : noNL c₂ = true) (h₃ : noNL c₃ = true) (h₄ : noNL c₄ = true)
    (h₅ : noNL c₅ = true) : noNL (rowOf c₁ c₂ c₃ c₄ c₅) = true := by
  rw [rowOf]
  exact noNL_char (by decide) (by decide) (noNL_app₂ h₁
    (noNL_char (by decide) (by decide) (noNL_app₂ h₂
      (noNL_char (by decide) (by decide) (noNL_app₂ h₃
        (noNL_char (by decide) (by decide) (noNL_app₂ h₄
          (noNL_char (by decide) (by decide) (noNL_app₂ h₅ (by decide))))))))))

theorem renderRow_noNL {L : LayerDigest} (h : layerOk L) :
    noNL (renderRow L) = true := by
  obtain ⟨-, -, -, hcb₁, -, hcb₂, hcom, -, -, -, -, hcb₄⟩ := h
  rw [renderRow_decomp]
  have hc₃ : noNL (escF (L.comment.getD [])) = true := by
    cases hcm : L.comment with
    | none => decide
    | some s =>
      obtain ⟨-, -, hcb₃⟩ := hcom s hcm
      exact noNL_escF (noNL_of_cellBase hcb₃)
  apply noNL_rowOf
  · exact noNL_app₂ (noNL_char (by decide) (by decide)
      (noNL_of_cellBase hcb₁)) (by decide)
  · exact noNL_app₂ (noNL_char (by decide) (by decide)
      (noNL_char (by decide) (by decide)
        (noNL_app₂ (noNL_escF (noNL_of_cellBase hcb₂)) (by decide)))) (by decide)
  · exact noNL_app₂ (noNL_char (by decide) (by decide) hc₃) (by decide)
  · exact noNL_app₂ (noNL_char (by decide) (by decide)
      (noNL_char (by decide) (by decide)
        (noNL_app₂ (noNL_of_cellBase hcb₄) (by decide)))) (by decide)
  · exact noNL_app₂ (noNL_char (by decide) (by decide)
      (noNL_boolStr L.is_empty)) (by decide)

/-- Side conditions on the basic-info fields under which its rendered
lines stay single lines. -/
def basicOk (b : BasicInfo) : Prop :=
  noNL b.name = true ∧ noNL b.id = true ∧ (∀ t ∈ b.tags, noNL t = true) ∧
  noNL b.created = true ∧ noNL b.architecture = true ∧ noNL b.os = true

/-- Side conditions on the container-config fields under which its
rendered lines stay single lines and the free-text lines re-examined by
the parser loop (environment variable lines, the command and entrypoint
payload lines) do not themselves look like a section header. -/
def configOk (cc : ContainerConfig) : Prop :=
  (∀ e ∈ cc.environment_variables, noNL e = true ∧ simpleLine e) ∧
  (∀ c, cc.command = some c → noNL c = true ∧ simpleLine c) ∧
  (∀ e, cc.entrypoint = some e → noNL e = true ∧ simpleLine e) ∧
  noNL cc.working_directory = true ∧
  (∀ p ∈ cc.exposed_ports, noNL p = true) ∧
  (∀ kv ∈ cc.labels, noNL kv.1 = true ∧ noNL kv.2 = true)

theorem headerLines_noNL {bi : Option BasicInfo}
    (hb : ∀ b, bi = some b → basicOk b) :
    ∀ l ∈ renderHeaderLines bi, noNL l = true := by
  intro l hl
  cases hbi : bi with
  | none =>
    rw [hbi, renderHeaderLines] at hl
    simp only [List.mem_cons, List.not_mem_nil, or_false] at hl
    rcases hl with rfl | rfl
    · decide
    · decide
  | some b =>
    rw [hbi, renderHeaderLines] at hl
    simp only [List.mem_cons, List.not_mem_nil, or_false] at hl
    rcases hl with rfl | rfl
    · exact noNL_app₂ (by decide) (hb b hbi).1
    · decide

theorem basicLines_noNL {b : BasicInfo} (hb : basicOk b) :
    ∀ l ∈ renderBasicLines b, noNL l = true := by
  obtain ⟨h₁, h₂, h₃, h₄, h₅, h₆⟩ := hb
  intro l hl
  rw [renderBasicLines] at hl
  rcases List.mem_append.mp hl with hl | hl
  · rcases List.mem_append.mp hl with hl | hl
    · simp only [List.mem_cons, List.not_mem_nil, or_false] at hl
      rcases hl with rfl | rfl | rfl | rfl
      · decide
      · decide
      · exact noNL_app₂ (by decide) h₁
      · exact noNL_app₂ (noNL_app₂ (by decide) h₂) (by decide)
    · by_cases ht : b.tags ≠ []
      · rw [if_pos ht] at hl
        simp only [List.mem_singleton] at hl
        subst hl
        exact noNL_app₂ (by decide) (noNL_joinSep (by decide) h₃)
      · rw [if_neg ht] at hl
        exact absurd hl (List.not_mem_nil l)
  · simp only [List.mem_cons, List.not_mem_nil, or_false] at hl
    rcases hl with rfl | rfl | rfl | rfl
    · exact noNL_app₂ (by decide) h₄
    · exact noNL_app₂ (by decide) h₅
    · exact noNL_app₂ (by decide) h₆
    · decide

theorem basicOpt_noNL {bi : Option BasicInfo}
    (hb : ∀ b, bi = some b → basicOk b) :
    ∀ l ∈ renderBasicOpt bi, noNL l = true := by
  intro l hl
  cases hbi : bi with
  | none =>
    rw [hbi, renderBasicOpt] at hl
    exact absurd hl (List.not_mem_nil l)
  | some b =>
    rw [hbi, renderBasicOpt] at hl
    exact basicLines_noNL (hb b hbi) l hl

theorem configLines_noNL {cc : ContainerConfig} (hc : configOk cc) :
    ∀ l ∈ renderConfigLines cc, noNL l = true := by
  obtain ⟨hEnv, hCmd, hEp, hWd, hPorts, hLbl⟩ := hc
  intro l hl
  rw [renderConfigLines] at hl
  rcases List.mem_append.mp hl with hl | hl
  · rcases List.mem_append.mp hl with hl | hl
    · rcases List.mem_append.mp hl with hl | hl
      · rcases List.mem_append.mp hl with hl | hl
        · rcases List.mem_append.mp hl with hl | hl
          · rcases List.mem_append.mp hl with hl | hl
            · simp only [List.mem_cons, List.not_mem_nil, or_false] at hl
              rcases hl with rfl | rfl
              · decide
              · decide
            · by_cases he : cc.environment_variables ≠ []
              · rw [if_pos he] at hl
                rcases List.mem_append.mp hl with hl | hl
                · rcases List.mem_append.mp hl with hl | hl
                  · simp only [List.mem_cons, List.not_mem_nil, or_false] at hl
                    rcases hl with rfl | rfl | rfl
                    · decide
                    · decide
                    · decide
                  · exact (hEnv l hl).1
                · simp only [List.mem_cons, List.not_mem_nil, or_false] at hl
                  rcases hl with rfl | rfl
                  · decide
                  · decide
              · rw [if_neg he] at hl
                exact absurd hl (List.not_mem_nil l)
          · cases hcm : cc.command with
            | none =>
              rw [hcm] at hl
              exact absurd hl (List.not_mem_nil l)
            | some c =>
              rw [hcm] at hl
              have hl' : l ∈ ["### Command".data, [], "```".data, c,
                  "```".data, []] := hl
              simp only [List.mem_cons, List.not_mem_nil, or_false] at hl'
              rcases hl' with rfl | rfl | rfl | rfl | rfl | rfl
              · decide
              · decide
              · decide
              · exact (hCmd _ hcm).1
              · decide
              · decide
        · cases hce : cc.entrypoint with
          | none =>
            rw [hce] at hl
            exact absurd hl (List.not_mem_nil l)
          | some e =>
            rw [hce] at hl
            have hl' : l ∈ ["### Entrypoint".data, [], "```".data, e,
                "```".data, []] := hl
            simp only [List.mem_cons, List.not_mem_nil, or_false] at hl'
            rcases hl' with rfl | rfl | rfl | rfl | rfl | rfl
            · decide
            · decide
            · decide
            · exact (hEp _ hce).1
            · decide
            · decide
      · by_cases hw : cc.working_directory ≠ []
        · rw [if_pos hw] at hl
          simp only [List.mem_cons, List.not_mem_nil, or_false] at hl
          rcases hl with rfl | rfl | rfl | rfl
          · decide
          · decide
          · exact noNL_app₂ (noNL_app₂ (by decide) hWd) (by decide)
          · decide
        · rw [if_neg hw] at hl
          exact absurd hl (List.not_mem_nil l)
    · by_cases hp : cc.exposed_ports ≠ []
      · rw [if_pos hp] at hl
        rcases List.mem_append.mp hl with hl | hl
        · rcases List.mem_append.mp hl with hl | hl
          · simp only [List.mem_cons, List.not_mem_nil, or_false] at hl
            rcases hl with rfl | rfl
            · decide
            · decide
          · obtain ⟨p, hpm, rfl⟩ := List.mem_map.mp hl
            exact noNL_app₂ (noNL_app₂ (by decide) (hPorts p hpm)) (by decide)
        · simp only [List.mem_singleton] at hl
          subst hl
          decide
      · rw [if_neg hp] at hl
        exact absurd hl (List.not_mem_nil l)
  · by_cases hlb : cc.labels ≠ []
    · rw [if_pos hlb] at hl
      rcases List.mem_append.mp hl with hl | hl
      · rcases List.mem_append.mp hl with hl | hl
        · simp only [List.mem_cons, List.not_mem_nil, or_false] at hl
          rcases hl with rfl | rfl | rfl | rfl
          · decide
          · decide
          · decide
          · decide
        · obtain ⟨kv, hkv, rfl⟩ := List.mem_map.mp hl
          exact noNL_app₂ (noNL_app₂ (noNL_app₂ (noNL_app₂ (by decide)
            (hLbl kv hkv).1) (by decide)) (hLbl kv hkv).2) (by decide)
      · simp only [List.mem_singleton] at hl
        subst hl
        decide
    · rw [if_neg hlb] at hl
      exact absurd hl (List.not_mem_nil l)

theorem configOpt_noNL {ci : Option ContainerConfig}
    (hc : ∀ cc, ci = some cc → configOk cc) :
    ∀ l ∈ renderConfigOpt ci, noNL l = true := by
  intro l hl
  cases hci : ci with
  | none =>
    rw [hci, renderConfigOpt] at hl
    exact absurd hl (List.not_mem_nil l)
  | some cc =>
    rw [hci, renderConfigOpt] at hl
    exact configLines_noNL (hc cc hci) l hl

theorem layerLines_noNL {ls : List LayerDigest} (h : ∀ L ∈ ls, layerOk L) :
    ∀ l ∈ renderLayerLines ls, noNL l = true := by
  intro l hl
  unfold renderLayerLines at hl
  by_cases hne : ls ≠ []
  · rw [if_pos hne] at hl
    rcases List.mem_append.mp hl with hl | hl
    · rcases List.mem_append.mp hl with hl | hl
      · simp only [List.mem_cons, List.not_mem_nil, or_false] at hl
        rcases hl with rfl | rfl | rfl | rfl
        · decide
        · decide
        · decide
        · decide
      · obtain ⟨L, hL, rfl⟩ := List.mem_map.mp hl
        exact renderRow_noNL (h L hL)
    · simp only [List.mem_singleton] at hl
      subst hl
      decide
  · rw [if_neg hne] at hl
    exact absurd hl (List.not_mem_nil l)

theorem renderLines_safe (m : ImageMetadata)
    (hB : ∀ b, m.basic_info = some b → basicOk b)
    (hC : ∀ cc, m.container_config = some cc → configOk cc)
    (hL : ∀ L ∈ m.layer_digests, layerOk L) :
    ∀ l ∈ renderLines m, ('\n' : Char) ∉ l ∧ l.getLast? ≠ some '\r' := by
  intro l hl
  apply noNL_safe
  rw [renderLines] at hl
  rcases List.mem_append.mp hl with hl | hl
  · rcases List.mem_append.mp hl with hl | hl
    · rcases List.mem_append.mp hl with hl | hl
      · exact headerLines_noNL hB l hl
      · exact basicOpt_noNL hB l hl
    · exact configOpt_noNL hC l hl
  · exact layerLines_noNL hL l hl

/-! ## C1 support: the parser is section-neutral on the pre-layer lines -/

theorem secOK_headerLines (bi : Option BasicInfo) :
    SecOK (renderHeaderLines bi) := by
  cases bi with
  | none =>
    apply secOK_of_simples
    intro l hl
    simp only [renderHeaderLines, List.mem_cons, List.not_mem_nil, or_false] at hl
    rcases hl with rfl | rfl
    · decide
    · decide
  | some b =>
    apply secOK_of_simples
    intro l hl
    simp only [renderHeaderLines, List.mem_cons, List.not_mem_nil, or_false] at hl
    rcases hl with rfl | rfl
    · exact simpleLine_image ("mage: ".data ++ b.name)
    · decide

theorem secOK_basicLines (b : BasicInfo) : SecOK (renderBasicLines b) := by
  apply secOK_of_simples
  intro l hl
  rw [renderBasicLines] at hl
  rcases List.mem_append.mp hl with hl | hl
  · rcases List.mem_append.mp hl with hl | hl
    · simp only [List.mem_cons, List.not_mem_nil, or_false] at hl
      rcases hl with rfl | rfl | rfl | rfl
      · decide
      · decide
      · exact simpleLine_dash (" **Name**: ".data ++ b.name)
      · exact simpleLine_dash ((" **ID**: `".data ++ b.id) ++ "`".data)
    · by_cases ht : b.tags ≠ []
      · rw [if_pos ht] at hl
        simp only [List.mem_singleton] at hl
        subst hl
        exact simpleLine_dash (" **Tags**: ".data ++ joinSep ", ".data b.tags)
      · rw [if_neg ht] at hl
        exact absurd hl (List.not_mem_nil l)
  · simp only [List.mem_cons, List.not_mem_nil, or_false] at hl
    rcases hl with rfl | rfl | rfl | rfl
    · exact simpleLine_dash (" **Created**: ".data ++ b.created)
    · exact simpleLine_dash (" **Architecture**: ".data ++ b.architecture)
    · exact simpleLine_dash (" **OS**: ".data ++ b.os)
    · decide

theorem secOK_basicOpt (bi : Option BasicInfo) : SecOK (renderBasicOpt bi) := by
  cases bi with
  | none => exact secOK_nil
  | some b => exact secOK_basicLines b

theorem secOK_configSec {cc : ContainerConfig} (hc : configOk cc) :
    SecOK (renderConfigLines cc) := by
  obtain ⟨hEnv, hCmd, hEp, -, -, -⟩ := hc
  unfold renderConfigLines
  refine secOK_append (secOK_append (secOK_append (secOK_append (secOK_append
    (secOK_append ?_ ?_) ?_) ?_) ?_) ?_) ?_
  · apply secOK_of_simples
    intro l hl
    simp only [List.mem_cons, List.not_mem_nil, or_false] at hl
    rcases hl with rfl | rfl
    · decide
    · decide
  · by_cases he : cc.environment_variables ≠ []
    · rw [if_pos he]
      refine secOK_append (secOK_append secOK_env3 (secOK_of_simples _ ?_))
        (secOK_of_simples _ ?_)
      · intro e he'
        exact (hEnv e he').2
      · intro l hl
        simp only [List.mem_cons, List.not_mem_nil, or_false] at hl
        rcases hl with rfl | rfl
        · decide
        · decide
    · rw [if_neg he]
      exact secOK_nil
  · cases hcm : cc.command with
    | none => exact secOK_nil
    | some c =>
      have hsec : SecOK (["### Command".data, [], "```".data] ++
          [c, "```".data, []]) := by
        refine secOK_append secOK_cmd3 (secOK_of_simples _ ?_)
        intro l hl
        simp only [List.mem_cons, List.not_mem_nil, or_false] at hl
        rcases hl with rfl | rfl | rfl
        · exact (hCmd _ hcm).2
        · decide
        · decide
      exact hsec
  · cases hce : cc.entrypoint with
    | none => exact secOK_nil
    | some e =>
      have hsec : SecOK (["### Entrypoint".data, [], "```".data] ++
          [e, "```".data, []]) := by
        refine secOK_append secOK_entry3 (secOK_of_simples _ ?_)
        intro l hl
        simp only [List.mem_cons, List.not_mem_nil, or_false] at hl
        rcases hl with rfl | rfl | rfl
        · exact (hEp _ hce).2
        · decide
        · decide
      exact hsec
  · by_cases hw : cc.working_directory ≠ []
    · rw [if_pos hw]
      have hsec : SecOK (["### Working Directory".data, [],
          "`".data ++ cc.working_directory ++ "`".data] ++ [[]]) := by
        refine secOK_append (secOK_wd3 _) (secOK_of_simples _ ?_)
        intro l hl
        simp only [List.mem_singleton] at hl
        subst hl
        decide
      exact hsec
    · rw [if_neg hw]
      exact secOK_nil
  · by_cases hp : cc.exposed_ports ≠ []
    · rw [if_pos hp]
      exact secOK_ports cc.exposed_ports
    · rw [if_neg hp]
      exact secOK_nil
  · by_cases hlb : cc.labels ≠ []
    · rw [if_pos hlb]
      exact secOK_labels cc.labels
    · rw [if_neg hlb]
      exact secOK_nil

theorem secOK_configOpt {ci : Option ContainerConfig}
    (hc : ∀ cc, ci = some cc → configOk cc) : SecOK (renderConfigOpt ci) := by
  cases hci : ci with
  | none => exact secOK_nil
  | some cc => exact secOK_configSec (hc cc hci)

theorem parseGo_pre_layers (pre : List Str) (hpre : SecOK pre)
    (ls : List LayerDigest) (hls : ∀ L ∈ ls, layerOk L) (st : PState)
    (fuel : Nat) (hf : (pre ++ renderLayerLines ls).length ≤ fuel) :
    (parseGo fuel (pre ++ renderLayerLines ls) st).layers =
      st.layers ++ ls := by
  obtain ⟨st', fuel', hle, heq, hlay⟩ := hpre (renderLayerLines ls) st fuel
    (by rw [List.length_append] at hf; exact hf)
  rw [heq, parseGo_layerSec ls hls st' fuel' hle, hlay]

/-- A layer entry whose command contains a backtick. -/
def c1BadLayer : LayerDigest where
  digest := "d".data
  command := "a`b".data
  created := "c".data
  is_empty := false
  comment := none

/-- Metadata consisting of that single layer entry. -/
def c1Bad : ImageMetadata where
  basic_info := none
  container_config := none
  layer_digests := [c1BadLayer]

/-- A well-behaved layer entry whose command contains a pipe. -/
def c1WitLayer : LayerDigest where
  digest := "sha256:abc".data
  command := "apt|get install".data
  created := "2024-01-01T00:00:00+00:00".data
  is_empty := false
  comment := none

/-- Metadata consisting of that single layer entry. -/
def c1Wit : ImageMetadata where
  basic_info := none
  container_config := none
  layer_digests := [c1WitLayer]

/-- C1: the unrestricted claim is false — `parse_markdown` strips every
backtick from the command cell (`parts[2].trim().replace("`", "")`), so a
command containing a backtick is not recovered byte-for-byte: for the
single-layer metadata with command `a`b` the reparsed command is `ab`. -/
theorem claim1_counterexample :
    ¬((parseMarkdown (renderMarkdown c1Bad)).layer_digests =
      c1Bad.layer_digests) := by
  decide

/-- C1 (amended): for every `ImageMetadata` whose layer entries satisfy
`layerOk` (single-line ASCII fields; trim-invariant, nonempty `created`
and `digest` without pipes; no backticks in `command` or `digest`;
`comment` either absent or nonempty and trim-invariant — pipes ARE
allowed in `command` and `comment`), whose basic info satisfies
`basicOk` and whose container config satisfies `configOk` (single-line
fields, and free-text lines that do not mimic a section header),
`parse_markdown (render_markdown m)` recovers `layer_digests`
byte-for-byte, including commands and comments containing `|`. -/
theorem claim1_roundtrip (m : ImageMetadata)
    (hL : ∀ L ∈ m.layer_digests, layerOk L)
    (hB : ∀ b, m.basic_info = some b → basicOk b)
    (hC : ∀ cc, m.container_config = some cc → configOk cc) :
    (parseMarkdown (renderMarkdown m)).layer_digests = m.layer_digests := by
  unfold renderMarkdown parseMarkdown
  dsimp only
  rw [linesOf_unlines _ (renderLines_safe m hB hC hL)]
  unfold renderLines
  rw [parseGo_pre_layers _
    (secOK_append (secOK_append (secOK_headerLines m.basic_info)
      (secOK_basicOpt m.basic_info)) (secOK_configOpt hC))
    m.layer_digests hL initPState _ (le_refl _)]
  rfl

/-- Witness: `claim1_roundtrip` applied to a concrete metadata value
with a pipe in the command. -/
theorem claim1_roundtrip_witness :
    (parseMarkdown (renderMarkdown c1Wit)).layer_digests = [c1WitLayer] :=
  claim1_roundtrip c1Wit
    (by
      intro L hLm
      simp only [c1Wit, List.mem_singleton] at hLm
      subst hLm
      exact ⟨by decide, by decide, by decide, by decide, by decide, by decide,
        fun s hs => Option.noConfusion hs, by decide, by decide, by decide,
        by decide, by decide⟩)
    (fun b h => Option.noConfusion h)
    (fun cc h => Option.noConfusion h)

end Oci2git
